import Mathlib

/-!
# Huffman compressor / decompressor

Shallow embedding of `src/huffman.cpp` (the encoder) and `src/unhuffman.cpp`
(the decoder).

Conventions of the embedding

* `char` is the signed 8-bit type of the usual x86-64 targets; a `char` value is
  an `Int` (a file byte `b` is read as the char `b` when `b < 128` and `b - 256`
  otherwise).  The input stream is the list of chars that `inFile.get(c)`
  delivers, the decoded stream the list of chars given to `out.put`.
* `int` is 32 bits wide; arithmetic on it is followed by `wrapInt32`.
* Raw bytes written with `put` into the table and payload files are kept as
  their bit pattern, a `Nat` below 256.
* A `std::string` over the characters `'0'` and `'1'` is a `List Bool`
  (`false` is `'0'`, `true` is `'1'`).
* `Node*` is the type `Node`; `Node.null` is `nullptr`.  Calling `top()` on an
  empty queue and writing past the end of a vector have no defined result: the
  functions that can do so return `Option`, with `none` for that case.  A read
  of a member through `nullptr` in `decodeFile` ends the run with
  `Decoded.nullDeref`.
* The payload file is its header value (the decimal line) and the bytes after
  it; the header is assumed to fit the `int` that `decode` reads it into.
* `std::priority_queue<Node*, std::vector<Node*>, Compare>` is the binary heap
  of libstdc++ (`push_heap`, `pop_heap` of `bits/stl_heap.h`) on a `List Node`.
* `std::map` is an association list kept in ascending key order.
-/

namespace Huffman

/-! ## Machine integers -/

/-- Value of a 32-bit two's-complement `int` holding the mathematical integer `x`. -/
def wrapInt32 (x : Int) : Int := (x + 2147483648) % 4294967296 - 2147483648

/-! ## `struct Node` and `struct Compare` -/

/-- A `Node*`: either `nullptr` or a node built by `Node(f, ch, l, r)`. -/
inductive Node where
  | null : Node
  | mk (freq : Int) (c : Int) (left right : Node) : Node
deriving DecidableEq, Repr

instance : Inhabited Node := ⟨Node.null⟩

/-- The member `freq` (only ever read through the non-null pointers of the queue). -/
def Node.freq : Node → Int
  | .null => 0
  | .mk f _ _ _ => f

/-- `Compare::operator()`: `a->freq > b->freq`. -/
def Compare (a b : Node) : Bool := decide (a.freq > b.freq)

/-! ## `std::priority_queue` (libstdc++ binary heap) -/

/-- The loop of `std::__push_heap(first, holeIndex, topIndex, value, comp)`: parents that
compare greater than `value` move down into the hole; `value` lands in the final hole.
The hole index strictly decreases, so `fuel = holeIndex` iterations suffice. -/
def pushHeapLoop (value : Node) (topIndex : Nat) : Nat → List Node → Nat → List Node
  | 0, v, holeIndex => v.set holeIndex value
  | fuel + 1, v, holeIndex =>
    let parent := (holeIndex - 1) / 2
    if holeIndex > topIndex ∧ Compare (v.getD parent Node.null) value = true then
      pushHeapLoop value topIndex fuel (v.set holeIndex (v.getD parent Node.null)) parent
    else
      v.set holeIndex value

/-- The function `std::__push_heap`. -/
def push_heap_aux (v : List Node) (holeIndex topIndex : Nat) (value : Node) : List Node :=
  pushHeapLoop value topIndex holeIndex v holeIndex

/-- The function `std::push_heap(first, last, comp)` on the whole vector. -/
def push_heap (v : List Node) : List Node :=
  push_heap_aux v (v.length - 1) 0 (v.getD (v.length - 1) Node.null)

/-- The `while (secondChild < (len - 1) / 2)` loop of `std::__adjust_heap`: the hole moves
down to the child that does not compare greater.  Returns the vector, `holeIndex` and
`secondChild`.  `secondChild` strictly increases, so `fuel = len` iterations suffice. -/
def adjustLoop (len : Nat) : Nat → List Node → Nat → Nat → List Node × Nat × Nat
  | 0, v, holeIndex, secondChild => (v, holeIndex, secondChild)
  | fuel + 1, v, holeIndex, secondChild =>
    if secondChild < (len - 1) / 2 then
      let secondChild1 := 2 * (secondChild + 1)
      let secondChild2 :=
        if Compare (v.getD secondChild1 Node.null) (v.getD (secondChild1 - 1) Node.null) = true
        then secondChild1 - 1 else secondChild1
      adjustLoop len fuel (v.set holeIndex (v.getD secondChild2 Node.null)) secondChild2 secondChild2
    else
      (v, holeIndex, secondChild)

/-- The function `std::__adjust_heap(first, holeIndex, len, value, comp)`. -/
def adjust_heap (v : List Node) (holeIndex len : Nat) (value : Node) : List Node :=
  let topIndex := holeIndex
  let r := adjustLoop len len v holeIndex holeIndex
  let v1 := r.1
  let holeIndex1 := r.2.1
  let secondChild := r.2.2
  if len % 2 = 0 ∧ secondChild = (len - 2) / 2 then
    let secondChild1 := 2 * (secondChild + 1)
    push_heap_aux (v1.set holeIndex1 (v1.getD (secondChild1 - 1) Node.null))
      (secondChild1 - 1) topIndex value
  else
    push_heap_aux v1 holeIndex1 topIndex value

/-- The function `std::pop_heap(first, last, comp)` on the whole vector: the top goes to the
last slot and the former last element is sifted down from the root. -/
def pop_heap (v : List Node) : List Node :=
  if v.length > 1 then
    let last := v.length - 1
    let value := v.getD last Node.null
    adjust_heap (v.set last (v.getD 0 Node.null)) 0 last value
  else v

/-- The member `priority_queue::push`: `c.push_back(x); push_heap(c.begin(), c.end(), comp)`. -/
def pq_push (pq : List Node) (x : Node) : List Node := push_heap (pq ++ [x])

/-- The member `priority_queue::pop`: `pop_heap(c.begin(), c.end(), comp); c.pop_back()`. -/
def pq_pop (pq : List Node) : List Node := (pop_heap pq).dropLast

/-- The member `priority_queue::top`: `c.front()`; no defined result on an empty queue. -/
def pq_top (pq : List Node) : Option Node := pq.head?

/-- The merge loop `while (pq.size() > 1) { ... }`, lines 44-51 of both source files.
Each iteration shrinks the queue by one, so `fuel = pq.size()` iterations suffice. -/
def mergeLoop : Nat → List Node → List Node
  | 0, pq => pq
  | fuel + 1, pq =>
    if pq.length > 1 then
      let left := pq.headD Node.null
      let pq1 := pq_pop pq
      let right := pq1.headD Node.null
      let pq2 := pq_pop pq1
      let combined := Node.mk (wrapInt32 (left.freq + right.freq)) 0 left right
      mergeLoop fuel (pq_push pq2 combined)
    else pq

/-! ## The encoder (`huffman.cpp`) -/

/-- The statement `freqMap[c]++` on a `std::map<char, int>`. -/
def freqIncr : List (Int × Int) → Int → List (Int × Int)
  | [], c => [(c, wrapInt32 (0 + 1))]
  | (k, n) :: m, c =>
    if c < k then (c, wrapInt32 (0 + 1)) :: (k, n) :: m
    else if c = k then (k, wrapInt32 (n + 1)) :: m
    else (k, n) :: freqIncr m c

/-- The counting loop of `main`, lines 152-155. -/
def countFreq (S : List Int) : List (Int × Int) := S.foldl freqIncr []

/-- The function `buildHuffmanTree`: one leaf per entry in map order, the merge loop, then
`pq.top()`. -/
def buildHuffmanTree (freqMap : List (Int × Int)) : Option Node :=
  let pq := freqMap.foldl (fun pq entry => pq_push pq (Node.mk entry.2 entry.1 Node.null Node.null)) []
  pq_top (mergeLoop pq.length pq)

/-- The statement `codeMap[c] = str` on the global `std::map<char, std::string>`. -/
def codeAssign : List (Int × List Bool) → Int → List Bool → List (Int × List Bool)
  | [], c, str => [(c, str)]
  | (k, s) :: m, c, str =>
    if c < k then (c, str) :: (k, s) :: m
    else if c = k then (k, str) :: m
    else (k, s) :: codeAssign m c str

/-- The value of `codeMap[c]` when read: the stored code, or the empty string that
`operator[]` default-constructs for a missing key. -/
def codeAt (codeMap : List (Int × List Bool)) (c : Int) : List Bool :=
  match codeMap.lookup c with
  | some s => s
  | none => []

/-- The function `buildCode(root, str)`, acting on the global `codeMap`. -/
def buildCode : Node → List Bool → List (Int × List Bool) → List (Int × List Bool)
  | .null, _, codeMap => codeMap
  | .mk _ c left right, str, codeMap =>
    if c ≠ 0 then codeAssign codeMap c str
    else buildCode right (str ++ [true]) (buildCode left (str ++ [false]) codeMap)

/-- The first loop of `encode`, lines 96-98: `encodedString += codeMap[c]` for every char. -/
def encodeString (codeMap : List (Int × List Bool)) : List Int → List Bool
  | [] => []
  | c :: rest => codeAt codeMap c ++ encodeString codeMap rest

/-- The packing loop of `encode`, lines 103-118, started with the current `tempChar` (its bit
pattern) and `bitCount`; returns the bytes given to `outFile.put`. -/
def packLoop : List Bool → Nat → Nat → List Nat
  | [], tempChar, bitCount =>
    if bitCount > 0 then [(tempChar <<< (8 - bitCount)) % 256] else []
  | bit :: rest, tempChar, bitCount =>
    let tempChar1 := ((tempChar <<< 1) ||| bit.toNat) % 256
    let bitCount1 := bitCount + 1
    if bitCount1 = 8 then tempChar1 :: packLoop rest 0 0
    else packLoop rest tempChar1 bitCount1

/-- Bytes of the payload after the header line: `packLoop` from `tempChar = 0, bitCount = 0`. -/
def pack (encodedString : List Bool) : List Nat := packLoop encodedString 0 0

/-- The assignment `outputData = (encodedString.size() + 7) / 8` into the global `int`. -/
def outputDataOf (encodedString : List Bool) : Int :=
  wrapInt32 (((encodedString.length + 7) / 8 : Nat) : Int)

/-- What `encode` leaves behind: the header line, the packed bytes and `outputData`. -/
structure Payload where
  bitCount : Nat
  packed : List Nat
  outputData : Int
deriving DecidableEq, Repr

/-- The function `encode`. -/
def encode (codeMap : List (Int × List Bool)) (S : List Int) : Payload :=
  let encodedString := encodeString codeMap S
  { bitCount := encodedString.length, packed := pack encodedString,
    outputData := outputDataOf encodedString }

/-- The loop of `main`, lines 164-167: `tableFile.put(entry.second)` writes the low byte of
each count. -/
def writeTable (freqMap : List (Int × Int)) : List Nat :=
  freqMap.map (fun entry => (entry.2 % 256).toNat)

/-- The `std::accumulate` of `main`, lines 169-172, with `int` additions. -/
def inputDataOf (freqMap : List (Int × Int)) : Int :=
  freqMap.foldl (fun sum entry => wrapInt32 (sum + entry.2)) 0

/-- Everything the encoder's `main` produces. -/
structure Encoded where
  freqMap : List (Int × Int)
  root : Node
  codeMap : List (Int × List Bool)
  payload : Payload
  table : List Nat
  inputData : Int
deriving DecidableEq, Repr

/-- The encoder's `main` from the counting loop on; `none` when `buildHuffmanTree` takes the
top of an empty queue. -/
def encoderMain (S : List Int) : Option Encoded :=
  let freqMap := countFreq S
  match buildHuffmanTree freqMap with
  | none => none
  | some root =>
    let codeMap := buildCode root [] []
    some { freqMap := freqMap, root := root, codeMap := codeMap,
           payload := encode codeMap S, table := writeTable freqMap,
           inputData := inputDataOf freqMap }

/-! ## The decoder (`unhuffman.cpp`) -/

/-- The loop of `importTable`, lines 87-89: `freq[i++] = static_cast<unsigned char>(c)`;
`none` when the write falls outside the vector. -/
def importLoop : List Nat → Nat → List Int → Option (List Int)
  | [], _, freq => some freq
  | b :: rest, i, freq =>
    if i < freq.length then importLoop rest (i + 1) (freq.set i (b : Int)) else none

/-- The function `HuffmanDecoder::buildTree`: a leaf for every index below 128 with a
positive count, the merge loop, then `root = pq.top()`. -/
def buildTree (freq : List Int) : Option Node :=
  let pq := (List.range 128).foldl
    (fun pq i => if freq.getD i 0 > 0 then pq_push pq (Node.mk (freq.getD i 0) (i : Int) Node.null Node.null)
                 else pq) []
  pq_top (mergeLoop pq.length pq)

/-- The function `HuffmanDecoder::importTable` applied to `std::vector<int> freq(128, 0)`. -/
def importTable (table : List Nat) : Option Node :=
  match importLoop table 0 (List.replicate 128 0) with
  | none => none
  | some freq => buildTree freq

/-- Lines 63-69 of `decodeFile`: refill `byte` when `bitCount == 0` (`none` at end of file),
then `--bitCount` and test that bit of `byte`.  Returns the bit and the new reader state. -/
def nextBit (byte bitCount : Nat) (input : List Nat) : Option (Bool × Nat × Nat × List Nat) :=
  if bitCount = 0 then
    match input with
    | [] => none
    | b :: rest => some (b.testBit 7, b, 7, rest)
  else
    some (byte.testBit (bitCount - 1), byte, bitCount - 1, input)

/-- The result of `decodeFile`: the chars written, or a read through `nullptr`. -/
inductive Decoded where
  | ok (out : List Int) : Decoded
  | nullDeref (out : List Int) : Decoded
deriving DecidableEq, Repr

/-- The loop of `decodeFile`, lines 62-79, with `n` iterations left. -/
def decodeLoop (root : Node) : Nat → Node → Nat → Nat → List Nat → List Int → Decoded
  | 0, _, _, _, _, out => Decoded.ok out
  | n + 1, current, byte, bitCount, input, out =>
    match nextBit byte bitCount input with
    | none => Decoded.ok out
    | some (bit, byte1, bitCount1, input1) =>
      match current with
      | .null => Decoded.nullDeref out
      | .mk _ _ left right =>
        match (if bit then right else left) with
        | .null => Decoded.nullDeref out
        | .mk f c l r =>
          if c ≠ 0 then decodeLoop root n root byte1 bitCount1 input1 (out ++ [c])
          else decodeLoop root n (Node.mk f c l r) byte1 bitCount1 input1 out

/-- The function `HuffmanDecoder::decodeFile(in, out, length)`. -/
def decodeFile (root : Node) (input : List Nat) (length : Nat) : Decoded :=
  decodeLoop root length root 0 0 input []

/-- The decoder's `main`: `importTable`, then `decode` on the payload (header value and
bytes); `none` when `importTable` has no defined result. -/
def decoderMain (table : List Nat) (length : Nat) (packed : List Nat) : Option Decoded :=
  match importTable table with
  | none => none
  | some root => some (decodeFile root packed length)

/-- Encoder followed by decoder on the encoder's two artifacts. -/
def roundTrip (S : List Int) : Option Decoded :=
  match encoderMain S with
  | none => none
  | some e => decoderMain e.table e.payload.bitCount e.payload.packed


/-! ## Auxiliary definitions used to state the properties -/

/-- The count stored for `c` in a frequency map, `0` when `c` is not a key. -/
def freqOf : List (Int × Int) → Int → Int
  | [], _ => 0
  | (k, n) :: m, c => if c = k then n else freqOf m c

/-- Keys of a map, in enumeration order. -/
def keys {β : Type} (m : List (Int × β)) : List Int := m.map Prod.fst

/-- Mathematical total of the counts of a frequency map. -/
def sumCounts (m : List (Int × Int)) : Int := (m.map Prod.snd).sum

/-- Invariant of the counting loop after the chars `P` have been read. -/
def CountInv (m : List (Int × Int)) (P : List Int) : Prop :=
  (keys m).Pairwise (· < ·) ∧ (∀ k, k ∈ keys m ↔ k ∈ P) ∧
  (∀ k, freqOf m k = (P.count k : Int)) ∧ sumCounts m = (P.length : Int)

/-- The bits that the loop of `decodeFile` extracts in `n` iterations from the reader state
`byte`, `bitCount`, `input` (it stops early when the input ends). -/
def extractBits : Nat → Nat → Nat → List Nat → List Bool
  | 0, _, _, _ => []
  | n + 1, byte, bitCount, input =>
    match nextBit byte bitCount input with
    | none => []
    | some (bit, byte1, bitCount1, input1) => bit :: extractBits n byte1 bitCount1 input1

/-- Bit number `i` of a byte sequence, most significant bit of each byte first: bit
`7 - i % 8` of byte `i / 8`. -/
def bitAt (bytes : List Nat) (i : Nat) : Bool := (bytes.getD (i / 8) 0).testBit (7 - i % 8)

/-- The assignments `codeMap[c] = str` that `buildCode(root, str)` performs, in order. -/
def codeAssignments : Node → List Bool → List (Int × List Bool)
  | .null, _ => []
  | .mk _ c left right, str =>
    if c ≠ 0 then [(c, str)]
    else codeAssignments left (str ++ [false]) ++ codeAssignments right (str ++ [true])

/-- No code of the table is a prefix of the code of a different symbol. -/
def PrefixFree (codeMap : List (Int × List Bool)) : Prop :=
  ∀ e1 ∈ codeMap, ∀ e2 ∈ codeMap, e1.1 ≠ e2.1 → ¬ e1.2 <+: e2.2

/-- The tree walk of `decodeFile`, lines 69-78, over an already extracted bit sequence. -/
def walkBits (root : Node) : List Bool → Node → List Int → Decoded
  | [], _, out => Decoded.ok out
  | bit :: bits, current, out =>
    match current with
    | .null => Decoded.nullDeref out
    | .mk _ _ left right =>
      match (if bit then right else left) with
      | .null => Decoded.nullDeref out
      | .mk f c l r =>
        if c ≠ 0 then walkBits root bits root (out ++ [c])
        else walkBits root bits (Node.mk f c l r) out

/-- Frequency of the node in slot `i` of the queue's vector. -/
def keyAt (v : List Node) (i : Nat) : Int := (v.getD i Node.null).freq

/-- The first `n` slots of `v` form a heap for `Compare`: no parent compares greater than its
child, that is, `parent.freq <= child.freq`. -/
def IsHeapN (n : Nat) (v : List Node) : Prop :=
  ∀ i, 0 < i → i < n → keyAt v ((i - 1) / 2) ≤ keyAt v i

/-- The whole vector is a heap for `Compare`. -/
def IsHeap (v : List Node) : Prop := IsHeapN v.length v

/-- Heap order on the first `n` slots for all parent-child pairs that do not involve slot `h`. -/
def HeapExcept (n : Nat) (v : List Node) (h : Nat) : Prop :=
  ∀ i, 0 < i → i < n → i ≠ h → (i - 1) / 2 ≠ h → keyAt v ((i - 1) / 2) ≤ keyAt v i

/-- The parent of slot `h` is not above the children of slot `h`. -/
def GrandOK (n : Nat) (v : List Node) (h : Nat) : Prop :=
  0 < h → ∀ c, 0 < c → c < n → (c - 1) / 2 = h → keyAt v ((h - 1) / 2) ≤ keyAt v c

/-- The pending value is not above the children of slot `h`. -/
def ValueOK (n : Nat) (v : List Node) (h : Nat) (x : Node) : Prop :=
  ∀ c, 0 < c → c < n → (c - 1) / 2 = h → x.freq ≤ keyAt v c

/-- The queue of `buildHuffmanTree` after its first loop: one leaf pushed per table entry. -/
def leafQueue (freqMap : List (Int × Int)) : List Node :=
  freqMap.foldl (fun pq entry => pq_push pq (Node.mk entry.2 entry.1 Node.null Node.null)) []

/-- The node `new Node(left->freq + right->freq, '\0', left, right)` of the merge loop. -/
def combine (left right : Node) : Node :=
  Node.mk (wrapInt32 (left.freq + right.freq)) 0 left right

/-- The iterations of the merge loop: for each one, the first-extracted node, the
second-extracted node and the queue that is left after the two `pop` calls. -/
def mergeTrace : Nat → List Node → List (Node × Node × List Node)
  | 0, _ => []
  | fuel + 1, pq =>
    if pq.length > 1 then
      (pq.headD Node.null, (pq_pop pq).headD Node.null, pq_pop (pq_pop pq)) ::
        mergeTrace fuel (pq_push (pq_pop (pq_pop pq))
          (combine (pq.headD Node.null) ((pq_pop pq).headD Node.null)))
    else []

/-- Every node with children has `left.freq <= right.freq`. -/
def OrderedTree : Node → Prop
  | .null => True
  | .mk _ _ left right =>
    ((left = Node.null ∧ right = Node.null) ∨ left.freq ≤ right.freq) ∧
      OrderedTree left ∧ OrderedTree right

/-- The leaves of a tree from left to right, each as (symbol, frequency). -/
def leaves : Node → List (Int × Int)
  | .null => []
  | .mk f c .null .null => [(c, f)]
  | .mk _ _ left right => leaves left ++ leaves right

/-- Every node is a leaf or has exactly two children and the sum of their frequencies as its
frequency. -/
def SumTree : Node → Prop
  | .null => False
  | .mk f _ left right =>
    (left = Node.null ∧ right = Node.null) ∨
      (left ≠ Node.null ∧ right ≠ Node.null ∧ f = left.freq + right.freq ∧
        SumTree left ∧ SumTree right)

/-- Invariant of the merge loop for a table of positive counts with a total below 2^31. -/
def SumInv (freqMap : List (Int × Int)) (pq : List Node) : Prop :=
  (∀ x ∈ pq, SumTree x ∧ 1 ≤ x.freq) ∧ (pq.flatMap leaves).Perm freqMap ∧
  (pq.map Node.freq).sum = sumCounts freqMap

/-- The same tree with the symbol `c` of every leaf replaced by `ρ c`; shape, frequencies and
the nodes with children are kept. -/
def relabel (ρ : Int → Int) : Node → Node
  | .null => .null
  | .mk f c .null .null => .mk f (ρ c) .null .null
  | .mk f c left right => .mk f c (relabel ρ left) (relabel ρ right)

/-- Every node is a leaf or carries the char 0 and two well-shaped children. -/
def WellShaped : Node → Prop
  | .null => False
  | .mk _ c left right =>
    (left = Node.null ∧ right = Node.null) ∨ (c = 0 ∧ WellShaped left ∧ WellShaped right)

/-- Invariant of the merge loop: well-shaped trees whose leaves are the table entries. -/
def ShapeInv (freqMap : List (Int × Int)) (pq : List Node) : Prop :=
  (∀ x ∈ pq, WellShaped x) ∧ (pq.flatMap leaves).Perm freqMap

/-- The queue of `buildTree` after the indices below `m` have been visited by its first loop. -/
def decoderQueue (freq : List Int) (m : Nat) : List Node :=
  (List.range m).foldl
    (fun pq i => if freq.getD i 0 > 0 then pq_push pq (Node.mk (freq.getD i 0) (i : Int) Node.null Node.null)
                 else pq) []

/-- Position of a symbol in the enumeration order of a frequency table. -/
def positionIn (freqMap : List (Int × Int)) (c : Int) : Int := ((keys freqMap).indexOf c : Nat)

/-- Kraft sum of a list of code lengths: the sum of `2 ^ (-d)`. -/
def kraft (ds : List Nat) : ℚ := (ds.map (fun d => ((1 : ℚ) / 2) ^ d)).sum

/-- Cost of a list of (weight, code length) pairs: the sum of weight times length. -/
def configCost (C : List (Int × Nat)) : Int := (C.map (fun p => p.1 * (p.2 : Int))).sum

/-- The weights `ws` can be given code lengths with Kraft sum at most 1 and cost at most
`bound`. -/
def Reach (ws : List Int) (bound : Int) : Prop :=
  ∃ C : List (Int × Nat), (C.map Prod.fst).Perm ws ∧ kraft (C.map Prod.snd) ≤ 1 ∧
    configCost C ≤ bound

/-- Sum over the leaves of a tree of frequency times depth, the root being at depth `k`. -/
def weightedDepth : Node → Nat → Int
  | .null, _ => 0
  | .mk f _ .null .null, k => f * (k : Int)
  | .mk _ _ left right, k => weightedDepth left (k + 1) + weightedDepth right (k + 1)

/-- The tails of the codes of `L` that start with the bit `b`. -/
def tailsOf (b : Bool) (L : List (List Bool)) : List (List Bool) :=
  L.filterMap (fun c => match c with
    | b' :: t => if b' = b then some t else none
    | [] => none)

/-! ## Machine integers and the counting loop -/

theorem wrapInt32_of_range (x : Int) (h1 : -2147483648 ≤ x) (h2 : x < 2147483648) :
    wrapInt32 x = x := by
  unfold wrapInt32; omega

theorem wrapInt32_add_wrap (x y : Int) : wrapInt32 (wrapInt32 x + y) = wrapInt32 (x + y) := by
  unfold wrapInt32; omega

theorem keys_freqIncr (m : List (Int × Int)) (c k : Int) :
    k ∈ keys (freqIncr m c) ↔ k = c ∨ k ∈ keys m := by
  induction m with
  | nil => simp [freqIncr, keys]
  | cons e m ih =>
    obtain ⟨k0, n0⟩ := e
    unfold freqIncr
    by_cases h1 : c < k0
    · simp [h1, keys]
    · by_cases h2 : c = k0
      · subst h2; simp [keys]
      · simp only [h1, h2, if_false]
        simp only [keys, List.map_cons, List.mem_cons] at ih ⊢
        rw [ih]; tauto

theorem sorted_freqIncr (m : List (Int × Int)) (c : Int)
    (h : (keys m).Pairwise (· < ·)) : (keys (freqIncr m c)).Pairwise (· < ·) := by
  induction m with
  | nil => simp [freqIncr, keys]
  | cons e m ih =>
    obtain ⟨k0, n0⟩ := e
    have hk : ∀ k ∈ keys m, k0 < k := by
      simp only [keys, List.map_cons, List.pairwise_cons] at h; exact h.1
    have hm : (keys m).Pairwise (· < ·) := by
      simp only [keys, List.map_cons, List.pairwise_cons] at h; exact h.2
    unfold freqIncr
    by_cases h1 : c < k0
    · simp only [h1, if_true, keys, List.map_cons, List.pairwise_cons]
      refine ⟨?_, ?_, hm⟩
      · intro a ha
        rcases List.mem_cons.1 ha with rfl | ha
        · exact h1
        · exact lt_trans h1 (hk a ha)
      · exact hk
    · by_cases h2 : c = k0
      · subst h2
        simp only [lt_self_iff_false, if_false, if_true, keys, List.map_cons, List.pairwise_cons]
        exact ⟨hk, hm⟩
      · simp only [h1, h2, if_false]
        have h3 : k0 < c := lt_of_le_of_ne (not_lt.1 h1) (Ne.symm h2)
        show (k0 :: keys (freqIncr m c)).Pairwise (· < ·)
        rw [List.pairwise_cons]
        refine ⟨?_, ih hm⟩
        intro a ha
        rcases (keys_freqIncr m c a).1 ha with rfl | ha
        · exact h3
        · exact hk a ha

theorem freqOf_eq_zero_of_lt (m : List (Int × Int)) (c : Int)
    (h : ∀ k ∈ keys m, c < k) : freqOf m c = 0 := by
  induction m with
  | nil => rfl
  | cons e m ih =>
    obtain ⟨k0, n0⟩ := e
    have h0 : c < k0 := h k0 (by simp [keys])
    have : c ≠ k0 := ne_of_lt h0
    simp only [freqOf, this, if_false]
    exact ih (fun k hk => h k (by simp only [keys, List.map_cons, List.mem_cons] at hk ⊢; exact Or.inr hk))

theorem freqOf_freqIncr (m : List (Int × Int)) (c k : Int)
    (h : (keys m).Pairwise (· < ·)) :
    freqOf (freqIncr m c) k = if k = c then wrapInt32 (freqOf m c + 1) else freqOf m k := by
  induction m with
  | nil =>
    by_cases hk : k = c <;> simp [freqIncr, freqOf, hk]
  | cons e m ih =>
    obtain ⟨k0, n0⟩ := e
    have hk0 : ∀ a ∈ keys m, k0 < a := by
      simp only [keys, List.map_cons, List.pairwise_cons] at h; exact h.1
    have hm : (keys m).Pairwise (· < ·) := by
      simp only [keys, List.map_cons, List.pairwise_cons] at h; exact h.2
    unfold freqIncr
    by_cases h1 : c < k0
    · have hz : freqOf m c = 0 := freqOf_eq_zero_of_lt m c (fun a ha => lt_trans h1 (hk0 a ha))
      have hne : c ≠ k0 := ne_of_lt h1
      by_cases hk : k = c
      · subst hk; simp [h1, freqOf, hne, hz]
      · simp [h1, freqOf, hk]
    · by_cases h2 : c = k0
      · subst h2
        by_cases hk : k = c
        · subst hk; simp [freqOf]
        · simp [freqOf, hk]
      · simp only [h1, h2, if_false]
        by_cases hk : k = c
        · subst hk
          simp only [freqOf, h2, if_false, if_true]
          rw [ih hm]; simp
        · by_cases hkk : k = k0
          · subst hkk; simp [freqOf, hk]
          · simp only [freqOf, hkk, if_false, hk]
            rw [ih hm]; simp [hk]

theorem mem_freqOf (m : List (Int × Int)) (c n : Int)
    (h : (keys m).Pairwise (· < ·)) (hmem : (c, n) ∈ m) : freqOf m c = n := by
  induction m with
  | nil => simp at hmem
  | cons e m ih =>
    obtain ⟨k0, n0⟩ := e
    have hk0 : ∀ a ∈ keys m, k0 < a := by
      simp only [keys, List.map_cons, List.pairwise_cons] at h; exact h.1
    have hm : (keys m).Pairwise (· < ·) := by
      simp only [keys, List.map_cons, List.pairwise_cons] at h; exact h.2
    rcases List.mem_cons.1 hmem with heq | hin
    · cases heq; simp [freqOf]
    · have hck : c ∈ keys m := List.mem_map.2 ⟨(c, n), hin, rfl⟩
      have : c ≠ k0 := ne_of_gt (hk0 c hck)
      simp only [freqOf, this, if_false]
      exact ih hm hin

theorem sumCounts_freqIncr (m : List (Int × Int)) (c : Int)
    (h : 0 ≤ freqOf m c ∧ freqOf m c < 2147483647) :
    sumCounts (freqIncr m c) = sumCounts m + 1 := by
  induction m with
  | nil => simp [freqIncr, sumCounts, wrapInt32]
  | cons e m ih =>
    obtain ⟨k0, n0⟩ := e
    unfold freqIncr
    by_cases h1 : c < k0
    · simp only [h1, if_true, sumCounts, List.map_cons, List.sum_cons]
      rw [wrapInt32_of_range _ (by omega) (by omega)]; omega
    · by_cases h2 : c = k0
      · subst h2
        simp only [freqOf, if_true] at h
        simp only [lt_self_iff_false, if_false, if_true, sumCounts, List.map_cons, List.sum_cons]
        rw [wrapInt32_of_range _ (by omega) (by omega)]; omega
      · simp only [freqOf, h2, if_false] at h
        simp only [h1, h2, if_false, sumCounts, List.map_cons, List.sum_cons]
        have := ih h
        simp only [sumCounts] at this
        rw [this]; omega

theorem countInv_nil : CountInv [] [] := by
  refine ⟨by simp [keys], by simp [keys], by simp [freqOf], by simp [sumCounts]⟩

theorem countInv_step (m : List (Int × Int)) (P : List Int) (c : Int)
    (h : CountInv m P) (hc : P.count c + 1 < 2147483648) :
    CountInv (freqIncr m c) (P ++ [c]) := by
  obtain ⟨hs, hk, hf, hsum⟩ := h
  refine ⟨sorted_freqIncr m c hs, ?_, ?_, ?_⟩
  · intro k
    rw [keys_freqIncr, hk]
    simp only [List.mem_append, List.mem_singleton]; tauto
  · intro k
    rw [freqOf_freqIncr m c k hs]
    by_cases hkc : k = c
    · subst hkc
      simp only [if_true, hf, List.count_append, List.count_singleton_self]
      rw [wrapInt32_of_range _ (by omega) (by omega)]
      push_cast; ring
    · simp only [hkc, if_false, hf, List.count_append]
      have : List.count k [c] = 0 := by
        rw [List.count_eq_zero]; simp [hkc]
      simp [this]
  · rw [sumCounts_freqIncr m c (by rw [hf]; omega), hsum]; simp

theorem countInv_foldl (S : List Int) : ∀ (m : List (Int × Int)) (P : List Int),
    CountInv m P → (∀ k, (P ++ S).count k < 2147483648) →
    CountInv (S.foldl freqIncr m) (P ++ S) := by
  induction S with
  | nil => intro m P h _; simpa using h
  | cons c S ih =>
    intro m P h hcnt
    have hc : P.count c + 1 < 2147483648 := by
      have := hcnt c
      simp only [List.count_append, List.count_cons_self] at this
      omega
    have := ih (freqIncr m c) (P ++ [c]) (countInv_step m P c h hc)
      (by intro k; simpa using hcnt k)
    simpa using this

theorem countInv_countFreq (S : List Int) (h : ∀ k, S.count k < 2147483648) :
    CountInv (countFreq S) S := by
  have := countInv_foldl S [] [] countInv_nil (by simpa using h)
  simpa [countFreq] using this

theorem inputDataOf_eq (m : List (Int × Int)) : ∀ (acc : Int),
    (∀ e ∈ m, 0 ≤ e.2) → 0 ≤ acc → acc + sumCounts m < 2147483648 →
    m.foldl (fun sum entry => wrapInt32 (sum + entry.2)) acc = acc + sumCounts m := by
  induction m with
  | nil => intro acc _ _ _; simp [sumCounts]
  | cons e m ih =>
    intro acc hpos hacc hlt
    have h0 := hpos e (by simp)
    have hm : ∀ e ∈ m, 0 ≤ e.2 := fun e he => hpos e (List.mem_cons_of_mem _ he)
    have hs : 0 ≤ sumCounts m := by
      unfold sumCounts
      apply List.sum_nonneg
      intro x hx
      obtain ⟨e, he, rfl⟩ := List.mem_map.1 hx
      exact hm e he
    simp only [sumCounts, List.map_cons, List.sum_cons] at hlt
    simp only [sumCounts] at hs
    simp only [List.foldl_cons]
    rw [wrapInt32_of_range _ (by omega) (by omega)]
    rw [ih _ hm (by omega) (by simp only [sumCounts]; omega)]
    simp only [sumCounts, List.map_cons, List.sum_cons]; omega

theorem countFreq_replicate_aux (c : Int) (n : Nat) : ∀ (k : Int),
    (List.replicate n c).foldl freqIncr [(c, wrapInt32 k)] = [(c, wrapInt32 (k + n))] := by
  induction n with
  | zero => intro k; simp
  | succ n ih =>
    intro k
    simp only [List.replicate_succ, List.foldl_cons, freqIncr, lt_self_iff_false, if_false,
      if_true]
    rw [wrapInt32_add_wrap, ih]
    congr 3; push_cast; ring

theorem countFreq_replicate (c : Int) (n : Nat) :
    countFreq (List.replicate (n + 1) c) = [(c, wrapInt32 (n + 1))] := by
  unfold countFreq
  simp only [List.replicate_succ, List.foldl_cons, freqIncr]
  rw [countFreq_replicate_aux]
  congr 3; ring

/-- C5 (amended): for an input of fewer than 2^31 chars the counting loop yields a table whose
keys are exactly the chars occurring in the input (in ascending order), every count is at least 1
and equals the number of occurrences, the counts total the input length, `inputData` equals the
input length, and the empty input yields the empty table. -/
theorem countFreq_table_invariant (S : List Int) (h : S.length < 2147483648) :
    (keys (countFreq S)).Pairwise (· < ·) ∧
    (∀ k, k ∈ keys (countFreq S) ↔ k ∈ S) ∧
    (∀ k n, (k, n) ∈ countFreq S → 1 ≤ n ∧ n = (S.count k : Int)) ∧
    sumCounts (countFreq S) = (S.length : Int) ∧
    inputDataOf (countFreq S) = (S.length : Int) ∧
    countFreq [] = [] := by
  have hinv : CountInv (countFreq S) S :=
    countInv_countFreq S (fun k => lt_of_le_of_lt (List.count_le_length k S) h)
  obtain ⟨hs, hk, hf, hsum⟩ := hinv
  have hmem : ∀ k n, (k, n) ∈ countFreq S → 1 ≤ n ∧ n = (S.count k : Int) := by
    intro k n hkn
    have h1 := mem_freqOf _ k n hs hkn
    rw [hf] at h1
    have h2 : k ∈ S := (hk k).1 (List.mem_map.2 ⟨(k, n), hkn, rfl⟩)
    have h3 : 0 < S.count k := List.count_pos_iff.2 h2
    omega
  refine ⟨hs, hk, hmem, hsum, ?_, rfl⟩
  unfold inputDataOf
  rw [inputDataOf_eq _ 0 (fun e he => by have := (hmem e.1 e.2 he).1; omega) (le_refl 0)
    (by rw [hsum]; omega), hsum]
  simp

/-- Witness for C5 on the input "aaabbc". -/
theorem countFreq_table_invariant_witness :
    (keys (countFreq [97, 97, 97, 98, 98, 99])).Pairwise (· < ·) ∧
    (∀ k, k ∈ keys (countFreq [97, 97, 97, 98, 98, 99]) ↔ k ∈ [97, 97, 97, 98, 98, (99 : Int)]) ∧
    (∀ k n, (k, n) ∈ countFreq [97, 97, 97, 98, 98, 99] →
      1 ≤ n ∧ n = (([97, 97, 97, 98, 98, 99] : List Int).count k : Int)) ∧
    sumCounts (countFreq [97, 97, 97, 98, 98, 99]) = (([97, 97, 97, 98, 98, 99] : List Int).length : Int) ∧
    inputDataOf (countFreq [97, 97, 97, 98, 98, 99]) = (([97, 97, 97, 98, 98, 99] : List Int).length : Int) ∧
    countFreq [] = [] :=
  countFreq_table_invariant [97, 97, 97, 98, 98, 99] (by decide)

/-- C5 as stated fails: on 2^31 copies of the char 'A' the single count has wrapped to -2^31,
so it is neither at least 1 nor the number of occurrences, and `inputData` is not the length. -/
theorem countFreq_overflow_counterexample :
    countFreq (List.replicate 2147483648 65) = [(65, -2147483648)] ∧
    ¬ (∀ k n, (k, n) ∈ countFreq (List.replicate 2147483648 65) →
        1 ≤ n ∧ n = ((List.replicate 2147483648 (65 : Int)).count k : Int)) ∧
    inputDataOf (countFreq (List.replicate 2147483648 65)) ≠
      ((List.replicate 2147483648 (65 : Int)).length : Int) := by
  have h : countFreq (List.replicate 2147483648 65) = [(65, -2147483648)] := by
    have e : (2147483648 : Nat) = 2147483647 + 1 := rfl
    rw [e, countFreq_replicate]
    rfl
  refine ⟨h, ?_, ?_⟩
  · intro hall
    have := (hall 65 (-2147483648) (by rw [h]; simp)).1
    omega
  · rw [h, List.length_replicate]
    simp [inputDataOf, wrapInt32]

/-! ## The persisted frequency table -/

theorem writeTable_eq_counts (m : List (Int × Int)) (S : List Int)
    (hm : ∀ k n, (k, n) ∈ m → n = (S.count k : Int)) (h : ∀ k, S.count k ≤ 255) :
    writeTable m = (keys m).map (fun k => S.count k) := by
  induction m with
  | nil => rfl
  | cons e m ih =>
    obtain ⟨k0, n0⟩ := e
    have h0 := hm k0 n0 (by simp)
    have hk := h k0
    simp only [writeTable, keys, List.map_cons, List.map_map] at ih ⊢
    rw [ih (fun k n hkn => hm k n (List.mem_cons_of_mem _ hkn))]
    congr 1
    subst h0
    omega

theorem sum_writeTable (m : List (Int × Int))
    (hm : ∀ e ∈ m, 0 ≤ e.2 ∧ e.2 ≤ 255) :
    (((writeTable m).sum : Nat) : Int) = sumCounts m := by
  induction m with
  | nil => rfl
  | cons e m ih =>
    have h0 := hm e (by simp)
    have := ih (fun e he => hm e (List.mem_cons_of_mem _ he))
    simp only [writeTable, sumCounts, List.map_cons, List.sum_cons] at this ⊢
    rw [Nat.cast_add, this]
    omega

/-- C6 (amended): when no char occurs more than 255 times in the input, the bytes written to
the table file are, key by key, the numbers of occurrences, and they add up to the length of the
input. -/
theorem writeTable_conservation (S : List Int) (h : ∀ k, S.count k ≤ 255) :
    writeTable (countFreq S) = (keys (countFreq S)).map (fun k => S.count k) ∧
    (writeTable (countFreq S)).sum = S.length := by
  obtain ⟨hs, hk, hf, hsum⟩ := countInv_countFreq S (fun k => lt_of_le_of_lt (h k) (by decide))
  have hmem : ∀ k n, (k, n) ∈ countFreq S → n = (S.count k : Int) := by
    intro k n hkn
    have h1 := mem_freqOf _ k n hs hkn
    rw [hf] at h1
    exact h1.symm
  refine ⟨writeTable_eq_counts _ S hmem h, ?_⟩
  have h2 := sum_writeTable (countFreq S) (fun e he => by
    have := hmem e.1 e.2 he
    have := h e.1
    omega)
  rw [hsum] at h2
  exact_mod_cast h2

/-- Witness for C6 on the input "aaabbc". -/
theorem writeTable_conservation_witness :
    (∀ k, ([97, 97, 97, 98, 98, 99] : List Int).count k ≤ 255) ∧
    writeTable (countFreq [97, 97, 97, 98, 98, 99]) =
      (keys (countFreq [97, 97, 97, 98, 98, 99])).map
        (fun k => ([97, 97, 97, 98, 98, 99] : List Int).count k) ∧
    (writeTable (countFreq [97, 97, 97, 98, 98, 99])).sum =
      ([97, 97, 97, 98, 98, 99] : List Int).length :=
  have h : ∀ k, ([97, 97, 97, 98, 98, 99] : List Int).count k ≤ 255 := fun k =>
    le_trans (List.count_le_length k _) (by decide)
  ⟨h, writeTable_conservation [97, 97, 97, 98, 98, 99] h⟩

/-- C6 as stated fails: for 256 copies of the char 'A' the one byte written to the table file
is 0, so the persisted counts add up to 0, not to the input length 256. -/
theorem writeTable_truncation_counterexample :
    writeTable (countFreq (List.replicate 256 65)) = [0] ∧
    (writeTable (countFreq (List.replicate 256 65))).sum ≠ (List.replicate 256 (65 : Int)).length := by
  have e : (256 : Nat) = 255 + 1 := rfl
  have h : writeTable (countFreq (List.replicate 256 65)) = [0] := by
    rw [e, countFreq_replicate]; rfl
  refine ⟨h, ?_⟩
  rw [h, List.length_replicate]
  decide

/-! ## Bit packing and unpacking -/

theorem pack_shift_or (t : Nat) (b : Bool) (h : t < 128) :
    ((t <<< 1) ||| b.toNat) % 256 = 2 * t + b.toNat := by
  have hb : b.toNat < 2 ^ 1 := by cases b <;> decide
  have h1 : t <<< 1 = 2 ^ 1 * t := by rw [Nat.shiftLeft_eq, Nat.mul_comm]
  rw [h1, ← Nat.mul_add_lt_is_or hb]
  have : b.toNat < 2 := by simpa using hb
  omega

theorem testBit_of_div (B j : Nat) (b : Bool) (t : Nat) (h : B / 2 ^ j = 2 * t + b.toNat) :
    B.testBit j = b := by
  rw [Nat.testBit_to_div_mod, h]
  cases b <;> simp [Nat.add_mod]

theorem extractBits_succ_pos (n byte k : Nat) (input : List Nat) (hk : 0 < k) :
    extractBits (n + 1) byte k input = byte.testBit (k - 1) :: extractBits n byte (k - 1) input := by
  have : k ≠ 0 := by omega
  simp [extractBits, nextBit, this]

theorem extractBits_succ_zero (n byte b : Nat) (rest : List Nat) :
    extractBits (n + 1) byte 0 (b :: rest) = b.testBit 7 :: extractBits n b 7 rest := by
  simp [extractBits, nextBit]

theorem two_pow_lt_256 (k : Nat) (hk : k < 8) : 2 ^ k ≤ 128 := by
  have : k = 0 ∨ k = 1 ∨ k = 2 ∨ k = 3 ∨ k = 4 ∨ k = 5 ∨ k = 6 ∨ k = 7 := by omega
  rcases this with h | h | h | h | h | h | h | h <;> subst h <;> decide

/-- Invariant linking the packing loop and the decoder's bit reader, for a packing state with
`k` bits already shifted into `tempChar`. -/
theorem packLoop_extract (b : List Bool) : ∀ (t k : Nat), k < 8 → t < 2 ^ k →
    (k = 0 → ∀ byte, extractBits b.length byte 0 (packLoop b t k) = b) ∧
    (0 < k → ∃ B rest, packLoop b t k = B :: rest ∧ B / 2 ^ (8 - k) = t ∧
      extractBits b.length B (8 - k) rest = b) := by
  induction b with
  | nil =>
    intro t k hk ht
    refine ⟨fun _ _ => rfl, fun hpos => ?_⟩
    refine ⟨(t <<< (8 - k)) % 256, [], ?_, ?_, rfl⟩
    · simp [packLoop, hpos]
    · have h2 : 2 ^ k * 2 ^ (8 - k) = 256 := by
        rw [← pow_add]; have : k + (8 - k) = 8 := by omega
        rw [this]; rfl
      have hp : 0 < 2 ^ (8 - k) := Nat.two_pow_pos _
      have hlt : t * 2 ^ (8 - k) < 256 := by
        rw [← h2]; exact Nat.mul_lt_mul_of_pos_right ht hp
      rw [Nat.shiftLeft_eq, Nat.mod_eq_of_lt hlt, Nat.mul_div_cancel _ hp]
  | cons bit rest ih =>
    intro t k hk ht
    have ht128 : t < 128 := lt_of_lt_of_le ht (two_pow_lt_256 k hk)
    have hstep := pack_shift_or t bit ht128
    have hbit : bit.toNat < 2 := by cases bit <;> decide
    by_cases h8 : k + 1 = 8
    · -- the byte is complete
      have hk7 : k = 7 := by omega
      subst hk7
      have hpl : packLoop (bit :: rest) t 7 = (2 * t + bit.toNat) :: packLoop rest 0 0 := by
        simp [packLoop, hstep]
      refine ⟨fun h => absurd h (by decide), fun _ => ?_⟩
      refine ⟨2 * t + bit.toNat, packLoop rest 0 0, hpl, ?_, ?_⟩
      · show (2 * t + bit.toNat) / 2 ^ 1 = t
        rw [pow_one]; omega
      · show extractBits (rest.length + 1) (2 * t + bit.toNat) 1 (packLoop rest 0 0) = bit :: rest
        rw [extractBits_succ_pos _ _ _ _ (by decide)]
        have h0 := (ih 0 0 (by decide) (by decide)).1 rfl (2 * t + bit.toNat)
        rw [show (1 : Nat) - 1 = 0 from rfl, h0]
        congr 1
        exact testBit_of_div _ 0 bit t (by simp)
    · have hk' : k + 1 < 8 := by omega
      have ht' : 2 * t + bit.toNat < 2 ^ (k + 1) := by rw [pow_succ]; omega
      have hpl : packLoop (bit :: rest) t k = packLoop rest (2 * t + bit.toNat) (k + 1) := by
        simp [packLoop, hstep, h8]
      obtain ⟨B, rs, hB, hdiv, hext⟩ := (ih (2 * t + bit.toNat) (k + 1) hk' ht').2 (by omega)
      have hbitB : B.testBit (8 - (k + 1)) = bit := testBit_of_div _ _ bit t hdiv
      refine ⟨fun h0 byte => ?_, fun hpos => ?_⟩
      · subst h0
        rw [hpl, hB]
        show extractBits (rest.length + 1) byte 0 (B :: rs) = bit :: rest
        rw [extractBits_succ_zero]
        have e : 8 - (0 + 1) = 7 := rfl
        rw [e] at hext hbitB
        rw [hext, hbitB]
      · refine ⟨B, rs, by rw [hpl, hB], ?_, ?_⟩
        · have e : 8 - k = (8 - (k + 1)) + 1 := by omega
          rw [e, pow_succ, ← Nat.div_div_eq_div_mul, hdiv]
          omega
        · show extractBits (rest.length + 1) B (8 - k) rs = bit :: rest
          rw [extractBits_succ_pos _ _ _ _ (by omega)]
          have e : 8 - k - 1 = 8 - (k + 1) := by omega
          rw [e, hext, hbitB]

theorem bitAt_cons_succ (b : Nat) (rest : List Nat) (i : Nat) (h : 7 ≤ i) :
    bitAt (b :: rest) (i + 1) = bitAt rest (i - 7) := by
  unfold bitAt
  have h1 : (i + 1) / 8 = (i - 7) / 8 + 1 := by omega
  have h2 : (i + 1) % 8 = (i - 7) % 8 := by omega
  rw [h1, h2, List.getD_cons_succ]

theorem bitAt_cons_lt (b : Nat) (rest : List Nat) (i : Nat) (h : i < 8) :
    bitAt (b :: rest) i = b.testBit (7 - i) := by
  unfold bitAt
  have h1 : i / 8 = 0 := by omega
  have h2 : i % 8 = i := by omega
  rw [h1, h2, List.getD_cons_zero]

/-- The decoder's reader yields, in order, the not yet consumed bits of the current byte and then
the bits of the remaining input, most significant bit first, as long as the input lasts. -/
theorem extractBits_eq_bitAt (n : Nat) : ∀ (byte k : Nat) (input : List Nat),
    k ≤ 8 → n ≤ k + 8 * input.length →
    extractBits n byte k input =
      (List.range n).map (fun i => if i < k then byte.testBit (k - 1 - i) else bitAt input (i - k)) := by
  induction n with
  | zero => intro byte k input _ _; rfl
  | succ n ih =>
    intro byte k input hk hn
    rw [List.range_succ_eq_map, List.map_cons, List.map_map]
    by_cases hk0 : k = 0
    · subst hk0
      cases input with
      | nil => simp at hn
      | cons b rest =>
        rw [extractBits_succ_zero, ih b 7 rest (by decide) (by simp only [List.length_cons] at hn; omega)]
        refine congrArg₂ List.cons ?_ (List.map_congr_left ?_)
        · rw [if_neg (Nat.lt_irrefl 0), Nat.sub_zero, bitAt_cons_lt _ _ _ (by decide)]
        · intro i _
          show (if i < 7 then b.testBit (7 - 1 - i) else bitAt rest (i - 7)) =
            (if i + 1 < 0 then byte.testBit (0 - 1 - (i + 1)) else bitAt (b :: rest) (i + 1 - 0))
          rw [if_neg (Nat.not_lt_zero (i + 1)), Nat.sub_zero]
          by_cases hi : i < 7
          · rw [if_pos hi, bitAt_cons_lt _ _ _ (by omega)]
            congr 1; omega
          · rw [if_neg hi, bitAt_cons_succ _ _ _ (by omega)]
    · rw [extractBits_succ_pos _ _ _ _ (by omega), ih byte (k - 1) input (by omega) (by omega)]
      refine congrArg₂ List.cons ?_ (List.map_congr_left ?_)
      · rw [if_pos (Nat.pos_of_ne_zero hk0), Nat.sub_zero]
      · intro i _
        show (if i < k - 1 then byte.testBit (k - 1 - 1 - i) else bitAt input (i - (k - 1))) =
          (if i + 1 < k then byte.testBit (k - 1 - (i + 1)) else bitAt input (i + 1 - k))
        by_cases hi : i < k - 1
        · have hi2 : i + 1 < k := by omega
          rw [if_pos hi, if_pos hi2]
          congr 1; omega
        · have hi2 : ¬ i + 1 < k := by omega
          rw [if_neg hi, if_neg hi2]
          congr 1; omega

theorem length_packLoop (b : List Bool) : ∀ (t k : Nat), k < 8 →
    (packLoop b t k).length = (b.length + k + 7) / 8 := by
  induction b with
  | nil =>
    intro t k hk
    by_cases h0 : 0 < k
    · simp only [packLoop, h0, if_true, List.length_singleton, List.length_nil]; omega
    · simp only [packLoop, h0, if_false, List.length_nil]; omega
  | cons bit rest ih =>
    intro t k hk
    by_cases h8 : k + 1 = 8
    · simp only [packLoop, h8, if_true, List.length_cons, ih _ 0 (by decide)]; omega
    · simp only [packLoop, h8, if_false, List.length_cons, ih _ (k + 1) (by omega)]; omega

theorem packLoop_lt_256 (b : List Bool) : ∀ (t k : Nat), ∀ x ∈ packLoop b t k, x < 256 := by
  induction b with
  | nil =>
    intro t k x hx
    by_cases h0 : 0 < k
    · simp only [packLoop, h0, if_true, List.mem_singleton] at hx
      subst hx; exact Nat.mod_lt _ (by decide)
    · simp [packLoop, h0] at hx
  | cons bit rest ih =>
    intro t k x hx
    by_cases h8 : k + 1 = 8
    · simp only [packLoop, h8, if_true, List.mem_cons] at hx
      rcases hx with rfl | hx
      · exact Nat.mod_lt _ (by decide)
      · exact ih _ _ x hx
    · simp only [packLoop, h8, if_false] at hx
      exact ih _ _ x hx

theorem packLoop_padding (b : List Bool) : ∀ (t k : Nat), k < 8 → t < 2 ^ k →
    (b.length + k) % 8 ≠ 0 →
    ∃ B, (packLoop b t k).getLast? = some B ∧ B % 2 ^ (8 - (b.length + k) % 8) = 0 := by
  induction b with
  | nil =>
    intro t k hk ht hne
    have hpos : 0 < k := by
      rcases Nat.eq_zero_or_pos k with h | h
      · subst h; simp at hne
      · exact h
    have hmod : (([] : List Bool).length + k) % 8 = k := by
      simp only [List.length_nil, Nat.zero_add]; omega
    refine ⟨(t <<< (8 - k)) % 256, by simp [packLoop, hpos], ?_⟩
    have h2 : 2 ^ k * 2 ^ (8 - k) = 256 := by
      rw [← pow_add]; have : k + (8 - k) = 8 := by omega
      rw [this]; rfl
    have hp : 0 < 2 ^ (8 - k) := Nat.two_pow_pos _
    have hlt : t * 2 ^ (8 - k) < 256 := by
      rw [← h2]; exact Nat.mul_lt_mul_of_pos_right ht hp
    rw [hmod, Nat.shiftLeft_eq, Nat.mod_eq_of_lt hlt, Nat.mul_mod_left]
  | cons bit rest ih =>
    intro t k hk ht hne
    have ht128 : t < 128 := lt_of_lt_of_le ht (two_pow_lt_256 k hk)
    have hstep := pack_shift_or t bit ht128
    have hbit : bit.toNat < 2 := by cases bit <;> decide
    by_cases h8 : k + 1 = 8
    · have hm : ((bit :: rest).length + k) % 8 = (rest.length + 0) % 8 := by
        simp only [List.length_cons]; omega
      rw [hm] at hne ⊢
      obtain ⟨B, hB, hz⟩ := ih 0 0 (by decide) (by decide) hne
      refine ⟨B, ?_, hz⟩
      simp only [packLoop, h8, if_true]
      cases hp : packLoop rest 0 0 with
      | nil => rw [hp] at hB; simp at hB
      | cons x xs => rw [hp] at hB; rw [List.getLast?_cons_cons]; exact hB
    · have hm : ((bit :: rest).length + k) % 8 = (rest.length + (k + 1)) % 8 := by
        simp only [List.length_cons]; omega
      rw [hm] at hne ⊢
      have ht' : 2 * t + bit.toNat < 2 ^ (k + 1) := by rw [pow_succ]; omega
      obtain ⟨B, hB, hz⟩ := ih (2 * t + bit.toNat) (k + 1) (by omega) ht' hne
      refine ⟨B, ?_, hz⟩
      simp only [packLoop, h8, if_false, hstep]
      exact hB

theorem testBit_of_mod_two_pow (B m j : Nat) (h : B % 2 ^ m = 0) (hj : j < m) :
    B.testBit j = false := by
  have := Nat.testBit_mod_two_pow B m j
  rw [h] at this
  simpa [hj] using this.symm

theorem getD_of_eq_map_range (l : List Bool) (f : Nat → Bool) (n : Nat)
    (h : l = (List.range n).map f) (i : Nat) (hi : i < n) : l.getD i false = f i := by
  subst h
  simp [List.getD_eq_getElem?_getD, List.getElem?_map, List.getElem?_range hi]

/-- C8: for every bit sequence `b`, the bits that the decoder's loop extracts in `b.length`
iterations from the bytes the packing loop emitted for `b` (whatever the uninitialised `byte`
holds at the start) are exactly `b`, in order; equivalently iteration `i` finds `b[i]` at bit
`7 - i % 8` of byte `i / 8`. -/
theorem pack_unpack_roundtrip (b : List Bool) :
    (∀ byte, extractBits b.length byte 0 (pack b) = b) ∧
    (∀ i, i < b.length → bitAt (pack b) i = b.getD i false) := by
  have h1 : ∀ byte, extractBits b.length byte 0 (pack b) = b :=
    (packLoop_extract b 0 0 (by decide) (by decide)).1 rfl
  refine ⟨h1, fun i hi => ?_⟩
  have hlen : (pack b).length = (b.length + 0 + 7) / 8 := length_packLoop b 0 0 (by decide)
  have h2 := extractBits_eq_bitAt b.length 0 0 (pack b) (by decide) (by rw [hlen]; omega)
  rw [h1 0] at h2
  have h3 := getD_of_eq_map_range b _ b.length h2 i hi
  rw [h3, if_neg (Nat.not_lt_zero i), Nat.sub_zero]

/-- Witness for C8 on the nine bits that encode "aaabbc". -/
theorem pack_unpack_roundtrip_witness :
    (∀ byte, extractBits 9 byte 0 (pack [false, false, false, true, true, true, true, true, false])
      = [false, false, false, true, true, true, true, true, false]) ∧
    bitAt (pack [false, false, false, true, true, true, true, true, false]) 8 = false :=
  ⟨(pack_unpack_roundtrip [false, false, false, true, true, true, true, true, false]).1,
   (pack_unpack_roundtrip [false, false, false, true, true, true, true, true, false]).2 8
     (by decide)⟩

/-- C9 (amended): for every bit sequence of length `n` the packing loop emits exactly
`(n + 7) / 8` bytes, each below 256 (so none for the empty sequence, and `8 * bytes = n` when `n`
is a multiple of 8); the `int` `outputData` equals that number whenever the number is below 2^31; and
when `n % 8` is not 0 the low `8 - n % 8` bits of the final byte are all zero. -/
theorem pack_boundary (b : List Bool) :
    pack [] = [] ∧
    (pack b).length = (b.length + 7) / 8 ∧
    (∀ x ∈ pack b, x < 256) ∧
    (b.length % 8 = 0 → 8 * (pack b).length = b.length) ∧
    ((b.length + 7) / 8 < 2147483648 → outputDataOf b = ((pack b).length : Int)) ∧
    (b.length % 8 ≠ 0 → ∃ B, (pack b).getLast? = some B ∧
      ∀ j, j < 8 - b.length % 8 → B.testBit j = false) := by
  have hlen : (pack b).length = (b.length + 7) / 8 := length_packLoop b 0 0 (by decide)
  refine ⟨rfl, hlen, packLoop_lt_256 b 0 0, fun h => by rw [hlen]; omega, fun h => ?_, fun h => ?_⟩
  · unfold outputDataOf
    rw [hlen, wrapInt32_of_range _ (by omega) (by omega)]
  · obtain ⟨B, hB, hz⟩ := packLoop_padding b 0 0 (by decide) (by decide) h
    exact ⟨B, hB, fun j hj => testBit_of_mod_two_pow B _ j hz hj⟩

/-- Witness for C9 on the bit sequences `101` and `10110010`. -/
theorem pack_boundary_witness :
    (pack [true, false, true]).length = ([true, false, true].length + 7) / 8 ∧
    outputDataOf [true, false, true] = ((pack [true, false, true]).length : Int) ∧
    (∃ B, (pack [true, false, true]).getLast? = some B ∧
      ∀ j, j < 8 - [true, false, true].length % 8 → B.testBit j = false) ∧
    8 * (pack [true, false, true, true, false, false, true, false]).length =
      [true, false, true, true, false, false, true, false].length :=
  ⟨(pack_boundary [true, false, true]).2.1,
   (pack_boundary [true, false, true]).2.2.2.2.1 (by decide),
   (pack_boundary [true, false, true]).2.2.2.2.2 (by decide),
   (pack_boundary [true, false, true, true, false, false, true, false]).2.2.2.1 (by decide)⟩

/-- C9 as stated fails: for a bit sequence of 2^34 zero bits the packing loop emits 2^31 bytes,
but the `int` `outputData` holds -2^31. -/
theorem outputData_overflow_counterexample :
    (pack (List.replicate 17179869184 false)).length = 2147483648 ∧
    outputDataOf (List.replicate 17179869184 false) = -2147483648 ∧
    outputDataOf (List.replicate 17179869184 false) ≠
      ((pack (List.replicate 17179869184 false)).length : Int) := by
  have h1 : (pack (List.replicate 17179869184 false)).length = 2147483648 := by
    unfold pack
    rw [length_packLoop _ 0 0 (by decide), List.length_replicate]
  have h2 : outputDataOf (List.replicate 17179869184 false) = -2147483648 := by
    unfold outputDataOf
    rw [List.length_replicate]
    rfl
  refine ⟨h1, h2, ?_⟩
  rw [h1, h2]
  decide

/-! ## The loop bounds are never the reason a loop stops -/

theorem pushHeapLoop_succ (value : Node) (topIndex fuel : Nat) (v : List Node) (holeIndex : Nat) :
    pushHeapLoop value topIndex (fuel + 1) v holeIndex =
      if holeIndex > topIndex ∧ Compare (v.getD ((holeIndex - 1) / 2) Node.null) value = true then
        pushHeapLoop value topIndex fuel (v.set holeIndex (v.getD ((holeIndex - 1) / 2) Node.null))
          ((holeIndex - 1) / 2)
      else v.set holeIndex value := rfl

/-- More fuel than the hole index does not change the result of the `__push_heap` loop. -/
theorem pushHeapLoop_fuel (value : Node) (topIndex fuel : Nat) :
    ∀ (v : List Node) (holeIndex : Nat), holeIndex ≤ fuel →
    pushHeapLoop value topIndex (fuel + 1) v holeIndex =
      pushHeapLoop value topIndex fuel v holeIndex := by
  induction fuel with
  | zero =>
    intro v holeIndex h
    have h0 : holeIndex = 0 := by omega
    subst h0
    rw [pushHeapLoop_succ, if_neg (by omega)]
    rfl
  | succ fuel ih =>
    intro v holeIndex h
    rw [pushHeapLoop_succ value topIndex (fuel + 1) v holeIndex]
    conv_rhs => rw [pushHeapLoop_succ value topIndex fuel v holeIndex]
    by_cases hg : holeIndex > topIndex ∧
        Compare (v.getD ((holeIndex - 1) / 2) Node.null) value = true
    · rw [if_pos hg, if_pos hg]
      exact ih _ _ (by omega)
    · rw [if_neg hg, if_neg hg]

theorem adjustLoop_succ (len fuel : Nat) (v : List Node) (holeIndex secondChild : Nat) :
    adjustLoop len (fuel + 1) v holeIndex secondChild =
      if secondChild < (len - 1) / 2 then
        adjustLoop len fuel
          (v.set holeIndex (v.getD
            (if Compare (v.getD (2 * (secondChild + 1)) Node.null)
                (v.getD (2 * (secondChild + 1) - 1) Node.null) = true
             then 2 * (secondChild + 1) - 1 else 2 * (secondChild + 1)) Node.null))
          (if Compare (v.getD (2 * (secondChild + 1)) Node.null)
              (v.getD (2 * (secondChild + 1) - 1) Node.null) = true
           then 2 * (secondChild + 1) - 1 else 2 * (secondChild + 1))
          (if Compare (v.getD (2 * (secondChild + 1)) Node.null)
              (v.getD (2 * (secondChild + 1) - 1) Node.null) = true
           then 2 * (secondChild + 1) - 1 else 2 * (secondChild + 1))
      else (v, holeIndex, secondChild) := rfl

/-- More fuel than `len - secondChild` does not change the result of the `__adjust_heap` loop. -/
theorem adjustLoop_fuel (len fuel : Nat) :
    ∀ (v : List Node) (holeIndex secondChild : Nat), len ≤ fuel + secondChild →
    adjustLoop len (fuel + 1) v holeIndex secondChild =
      adjustLoop len fuel v holeIndex secondChild := by
  induction fuel with
  | zero =>
    intro v holeIndex secondChild h
    have hg : ¬ secondChild < (len - 1) / 2 := by omega
    rw [adjustLoop_succ, if_neg hg]
    rfl
  | succ fuel ih =>
    intro v holeIndex secondChild h
    rw [adjustLoop_succ len (fuel + 1) v holeIndex secondChild]
    conv_rhs => rw [adjustLoop_succ len fuel v holeIndex secondChild]
    by_cases hg : secondChild < (len - 1) / 2
    · rw [if_pos hg, if_pos hg]
      apply ih
      split <;> omega
    · rw [if_neg hg, if_neg hg]

/-- The decoder's loop is the tree walk over the bits its reader extracts. -/
theorem decodeLoop_eq_walkBits (root : Node) (n : Nat) :
    ∀ (current : Node) (byte bitCount : Nat) (input : List Nat) (out : List Int),
    decodeLoop root n current byte bitCount input out =
      walkBits root (extractBits n byte bitCount input) current out := by
  induction n with
  | zero => intro current byte bitCount input out; rfl
  | succ n ih =>
    intro current byte bitCount input out
    unfold decodeLoop extractBits
    cases hnb : nextBit byte bitCount input with
    | none => rfl
    | some r =>
      obtain ⟨bit, byte1, bitCount1, input1⟩ := r
      simp only [walkBits]
      cases current with
      | null => rfl
      | mk f c l r =>
        simp only
        cases hch : (if bit = true then r else l) with
        | null => rfl
        | mk f2 c2 l2 r2 =>
          simp only
          split
          · exact ih _ _ _ _ _
          · exact ih _ _ _ _ _

/-! ## Sizes of the priority queue -/

theorem length_pushHeapLoop (value : Node) (topIndex fuel : Nat) :
    ∀ (v : List Node) (holeIndex : Nat),
    (pushHeapLoop value topIndex fuel v holeIndex).length = v.length := by
  induction fuel with
  | zero => intro v holeIndex; simp [pushHeapLoop]
  | succ fuel ih =>
    intro v holeIndex
    unfold pushHeapLoop
    simp only
    split
    · rw [ih]; simp
    · simp

theorem length_push_heap_aux (v : List Node) (holeIndex topIndex : Nat) (value : Node) :
    (push_heap_aux v holeIndex topIndex value).length = v.length :=
  length_pushHeapLoop value topIndex holeIndex v holeIndex

theorem length_push_heap (v : List Node) : (push_heap v).length = v.length :=
  length_push_heap_aux _ _ _ _

theorem length_adjustLoop (len fuel : Nat) : ∀ (v : List Node) (holeIndex secondChild : Nat),
    (adjustLoop len fuel v holeIndex secondChild).1.length = v.length := by
  induction fuel with
  | zero => intro v h s; rfl
  | succ fuel ih =>
    intro v h s
    unfold adjustLoop
    simp only
    split
    · rw [ih]; simp
    · rfl

theorem length_adjust_heap (v : List Node) (holeIndex len : Nat) (value : Node) :
    (adjust_heap v holeIndex len value).length = v.length := by
  unfold adjust_heap
  simp only
  split
  · rw [length_push_heap_aux, List.length_set, length_adjustLoop]
  · rw [length_push_heap_aux, length_adjustLoop]

theorem length_pop_heap (v : List Node) : (pop_heap v).length = v.length := by
  unfold pop_heap
  split
  · simp only; rw [length_adjust_heap, List.length_set]
  · rfl

theorem length_pq_push (pq : List Node) (x : Node) : (pq_push pq x).length = pq.length + 1 := by
  unfold pq_push; rw [length_push_heap]; simp

theorem length_pq_pop (pq : List Node) : (pq_pop pq).length = pq.length - 1 := by
  unfold pq_pop; rw [List.length_dropLast, length_pop_heap]

/-- The merge loop runs to completion within its fuel: it ends with exactly one node. -/
theorem length_mergeLoop (fuel : Nat) : ∀ (pq : List Node),
    1 ≤ pq.length → pq.length ≤ fuel + 1 → (mergeLoop fuel pq).length = 1 := by
  induction fuel with
  | zero => intro pq h1 h2; simp only [mergeLoop]; omega
  | succ fuel ih =>
    intro pq h1 h2
    unfold mergeLoop
    split
    · rename_i hgt
      simp only
      apply ih
      · rw [length_pq_push]; omega
      · rw [length_pq_push, length_pq_pop, length_pq_pop]; omega
    · omega

/-- More fuel than the queue size does not change the result of the merge loop. -/
theorem mergeLoop_fuel (fuel : Nat) : ∀ (pq : List Node), pq.length ≤ fuel + 1 →
    mergeLoop (fuel + 1) pq = mergeLoop fuel pq := by
  induction fuel with
  | zero =>
    intro pq h
    have hg : ¬ pq.length > 1 := by omega
    simp [mergeLoop, hg]
  | succ fuel ih =>
    intro pq h
    by_cases hg : pq.length > 1
    · have e1 : mergeLoop (fuel + 1 + 1) pq =
          mergeLoop (fuel + 1) (pq_push (pq_pop (pq_pop pq))
            (Node.mk (wrapInt32 ((pq.headD Node.null).freq + ((pq_pop pq).headD Node.null).freq)) 0
              (pq.headD Node.null) ((pq_pop pq).headD Node.null))) := by
        simp [mergeLoop, hg]
      have e2 : mergeLoop (fuel + 1) pq =
          mergeLoop fuel (pq_push (pq_pop (pq_pop pq))
            (Node.mk (wrapInt32 ((pq.headD Node.null).freq + ((pq_pop pq).headD Node.null).freq)) 0
              (pq.headD Node.null) ((pq_pop pq).headD Node.null))) := by
        simp [mergeLoop, hg]
      rw [e1, e2]
      apply ih
      rw [length_pq_push, length_pq_pop, length_pq_pop]; omega
    · simp [mergeLoop, hg]

theorem length_foldl_push {α : Type} (f : α → Node) (l : List α) : ∀ (pq : List Node),
    (l.foldl (fun pq entry => pq_push pq (f entry)) pq).length = pq.length + l.length := by
  induction l with
  | nil => intro pq; rfl
  | cons a l ih =>
    intro pq
    simp only [List.foldl_cons, List.length_cons]
    rw [ih, length_pq_push]; omega

/-- The function `buildHuffmanTree` returns a root for every table with at least one entry. -/
theorem buildHuffmanTree_isSome (freqMap : List (Int × Int)) (h : freqMap ≠ []) :
    ∃ root, buildHuffmanTree freqMap = some root := by
  unfold buildHuffmanTree
  simp only
  have hl := length_foldl_push (fun entry : Int × Int => Node.mk entry.2 entry.1 Node.null Node.null)
    freqMap []
  have hpos : 0 < freqMap.length := List.length_pos.2 h
  have := length_mergeLoop _ _ (by rw [hl]; simp; omega) (Nat.le_succ _)
  revert this
  generalize mergeLoop _ _ = r
  intro hr
  cases r with
  | nil => simp at hr
  | cons x xs => exact ⟨x, rfl⟩

/-! ## The code table -/

theorem mem_codeAssign (m : List (Int × List Bool)) (c : Int) (str : List Bool)
    (e : Int × List Bool) (h : e ∈ codeAssign m c str) : e = (c, str) ∨ e ∈ m := by
  induction m with
  | nil => simp only [codeAssign, List.mem_singleton] at h; exact Or.inl h
  | cons a m ih =>
    obtain ⟨k, s⟩ := a
    unfold codeAssign at h
    by_cases h1 : c < k
    · simp only [h1, if_true, List.mem_cons] at h
      rcases h with h | h | h
      · exact Or.inl h
      · exact Or.inr (by simp [h])
      · exact Or.inr (List.mem_cons_of_mem _ h)
    · by_cases h2 : c = k
      · simp only [h1, h2, if_true, if_false, List.mem_cons, lt_self_iff_false] at h
        rcases h with h | h
        · exact Or.inl (by rw [h, h2])
        · exact Or.inr (List.mem_cons_of_mem _ h)
      · simp only [h1, h2, if_false, List.mem_cons] at h
        rcases h with h | h
        · exact Or.inr (by simp [h])
        · rcases ih h with h | h
          · exact Or.inl h
          · exact Or.inr (List.mem_cons_of_mem _ h)

theorem mem_foldl_codeAssign (L : List (Int × List Bool)) :
    ∀ (m : List (Int × List Bool)) (e : Int × List Bool),
    e ∈ L.foldl (fun m a => codeAssign m a.1 a.2) m → e ∈ m ∨ e ∈ L := by
  induction L with
  | nil => intro m e h; exact Or.inl h
  | cons a L ih =>
    intro m e h
    rcases ih _ e h with h | h
    · rcases mem_codeAssign m a.1 a.2 e h with h | h
      · exact Or.inr (by rw [h]; simp)
      · exact Or.inl h
    · exact Or.inr (List.mem_cons_of_mem _ h)

/-- The function `buildCode` performs the assignments of `codeAssignments`, in order. -/
theorem buildCode_eq_foldl (t : Node) : ∀ (str : List Bool) (m : List (Int × List Bool)),
    buildCode t str m = (codeAssignments t str).foldl (fun m a => codeAssign m a.1 a.2) m := by
  induction t with
  | null => intro str m; rfl
  | mk f c l r ihl ihr =>
    intro str m
    by_cases hc : c = 0
    · simp only [buildCode, codeAssignments, hc, ne_eq, not_true_eq_false, if_false,
        List.foldl_append]
      rw [ihl, ihr]
    · simp only [buildCode, codeAssignments, hc, ne_eq, not_false_eq_true, if_true,
        List.foldl_cons, List.foldl_nil]

theorem codeAssignments_extend (t : Node) : ∀ (str : List Bool),
    ∀ e ∈ codeAssignments t str, str <+: e.2 := by
  induction t with
  | null => intro str e h; simp [codeAssignments] at h
  | mk f c l r ihl ihr =>
    intro str e h
    by_cases hc : c = 0
    · simp only [codeAssignments, hc, ne_eq, not_true_eq_false, if_false, List.mem_append] at h
      rcases h with h | h
      · exact List.IsPrefix.trans (List.prefix_append _ _) (ihl _ e h)
      · exact List.IsPrefix.trans (List.prefix_append _ _) (ihr _ e h)
    · simp only [codeAssignments, hc, ne_eq, not_false_eq_true, if_true, List.mem_singleton] at h
      rw [h]

theorem branches_incomparable (str a b : List Bool)
    (ha : (str ++ [false]) <+: a) (hb : (str ++ [true]) <+: b) :
    ¬ a <+: b ∧ ¬ b <+: a := by
  obtain ⟨ra, rfl⟩ := ha
  obtain ⟨rb, rfl⟩ := hb
  constructor
  · rintro ⟨x, hx⟩
    simp only [List.append_assoc, List.append_cancel_left_eq, List.singleton_append,
      List.cons_append] at hx
    simp at hx
  · rintro ⟨x, hx⟩
    simp only [List.append_assoc, List.append_cancel_left_eq, List.singleton_append,
      List.cons_append] at hx
    simp at hx

/-- The codes that one run of `buildCode` assigns are pairwise incomparable. -/
theorem codeAssignments_pairwise (t : Node) : ∀ (str : List Bool),
    (codeAssignments t str).Pairwise (fun a b => ¬ a.2 <+: b.2 ∧ ¬ b.2 <+: a.2) := by
  induction t with
  | null => intro str; simp [codeAssignments]
  | mk f c l r ihl ihr =>
    intro str
    by_cases hc : c = 0
    · simp only [codeAssignments, hc, ne_eq, not_true_eq_false, if_false]
      rw [List.pairwise_append]
      refine ⟨ihl _, ihr _, ?_⟩
      intro a ha b hb
      exact branches_incomparable str a.2 b.2 (codeAssignments_extend l _ a ha)
        (codeAssignments_extend r _ b hb)
    · simp [codeAssignments, hc]

theorem prefixFree_buildCode (t : Node) : PrefixFree (buildCode t [] []) := by
  intro e1 h1 e2 h2 hne
  rw [buildCode_eq_foldl] at h1 h2
  have m1 : e1 ∈ codeAssignments t [] := by
    rcases mem_foldl_codeAssign _ _ _ h1 with h | h
    · simp at h
    · exact h
  have m2 : e2 ∈ codeAssignments t [] := by
    rcases mem_foldl_codeAssign _ _ _ h2 with h | h
    · simp at h
    · exact h
  have hsym : Symmetric (fun a b : Int × List Bool => ¬ a.2 <+: b.2 ∧ ¬ b.2 <+: a.2) :=
    fun a b h => ⟨h.2, h.1⟩
  have hne' : e1 ≠ e2 := fun h => hne (by rw [h])
  exact ((codeAssignments_pairwise t []).forall hsym m1 m2 hne').1

/-- C2: for every frequency table with at least one entry, `buildHuffmanTree` returns a root,
and in the code table that `buildCode(root, "")` produces from it no code is a prefix of the code
of a different symbol. -/
theorem buildCode_prefix_free (freqMap : List (Int × Int)) (h : freqMap ≠ []) :
    ∃ root, buildHuffmanTree freqMap = some root ∧ PrefixFree (buildCode root [] []) := by
  obtain ⟨root, hroot⟩ := buildHuffmanTree_isSome freqMap h
  exact ⟨root, hroot, prefixFree_buildCode root⟩

/-- Witness for C2 on the frequency table of "aaabbc". -/
theorem buildCode_prefix_free_witness :
    ∃ root, buildHuffmanTree [(97, 3), (98, 2), (99, 1)] = some root ∧
      PrefixFree (buildCode root [] []) :=
  buildCode_prefix_free [(97, 3), (98, 2), (99, 1)] (by decide)

/-! ## Encoder followed by decoder on concrete inputs -/

set_option maxRecDepth 1000000 in
/-- C1: the round trip fails.  On "aaabbc" the decoder reads through a null child before it has
written anything; on the single char "A" it writes nothing; on the empty input the encoder takes
the top of an empty queue. -/
theorem roundTrip_fails :
    roundTrip [97, 97, 97, 98, 98, 99] = some (Decoded.nullDeref []) ∧
    roundTrip [65] = some (Decoded.ok []) ∧
    roundTrip [] = none := by
  decide

set_option maxRecDepth 1000000 in
/-- C3: for the table of the input "\0a" the code table has the single key 'a'; the key 0 of the
frequency table has no code. -/
theorem buildCode_skips_nul :
    countFreq [0, 97] = [(0, 1), (97, 1)] ∧
    (buildHuffmanTree [(0, 1), (97, 1)]).map (fun root => buildCode root [] []) =
      some [(97, [true])] := by
  decide

/-- C4: for every input of `n + 1` copies of the char 'A' (in particular 1000 of them) the root
is a leaf and the code table has the single entry 'A' whose code is the empty string. -/
theorem single_symbol_code_empty (n : Nat) :
    (encoderMain (List.replicate (n + 1) 65)).map (fun e => (e.root, e.codeMap)) =
      some (Node.mk (wrapInt32 (n + 1)) 65 Node.null Node.null, [(65, [])]) := by
  unfold encoderMain
  simp only
  rw [countFreq_replicate]
  rfl

set_option maxRecDepth 1000000 in
/-- C7: on the encoder's artifacts for "aaabbc" the persisted counts add up to 6 while
`decodeFile` writes no symbol at all (it reads through a null child); for "A" the persisted count
is 1 and `decodeFile` writes no symbol. -/
theorem decoded_count_mismatch :
    (encoderMain [97, 97, 97, 98, 98, 99]).map
        (fun e => (e.table.sum, decoderMain e.table e.payload.bitCount e.payload.packed)) =
      some (6, some (Decoded.nullDeref [])) ∧
    (encoderMain [65]).map
        (fun e => (e.table.sum, decoderMain e.table e.payload.bitCount e.payload.packed)) =
      some (1, some (Decoded.ok [])) := by
  decide

set_option maxRecDepth 1000000 in
/-- C10: for "aaabbc" the decoder's tree has the encoder's shape and frequencies but the leaves
hold the chars 0, 1, 2 in place of 'a', 'b', 'c'. -/
theorem rebuilt_tree_differs :
    (encoderMain [97, 97, 97, 98, 98, 99]).map (fun e => (e.root, importTable e.table)) =
      some (Node.mk 6 0 (Node.mk 3 97 Node.null Node.null)
              (Node.mk 3 0 (Node.mk 1 99 Node.null Node.null) (Node.mk 2 98 Node.null Node.null)),
            some (Node.mk 6 0 (Node.mk 3 0 Node.null Node.null)
              (Node.mk 3 0 (Node.mk 1 2 Node.null Node.null) (Node.mk 2 1 Node.null Node.null)))) := by
  decide

/-! ## The priority queue keeps its elements -/

theorem getD_set_eq (v : List Node) (i : Nat) (x : Node) (h : i < v.length) :
    (v.set i x).getD i Node.null = x := by
  simp [List.getD_eq_getElem?_getD, List.getElem?_set, h]

theorem getD_set_ne (v : List Node) (i j : Nat) (x : Node) (h : i ≠ j) :
    (v.set i x).getD j Node.null = v.getD j Node.null := by
  simp [List.getD_eq_getElem?_getD, List.getElem?_set, h]

theorem count_set_add (l : List Node) (i : Nat) (a b : Node) (h : i < l.length) :
    (l.set i a).count b + (if l.getD i Node.null = b then 1 else 0) =
      l.count b + (if a = b then 1 else 0) := by
  induction l generalizing i with
  | nil => simp at h
  | cons x l ih =>
    cases i with
    | zero =>
      simp only [List.set_cons_zero, List.getD_cons_zero, List.count_cons, beq_iff_eq]
      omega
    | succ i =>
      have := ih i (by simpa using h)
      simp only [List.set_cons_succ, List.getD_cons_succ, List.count_cons, beq_iff_eq]
      omega

/-- Moving the element of slot `p` into the hole `h` and putting the pending value at `p`
is a rearrangement of putting the pending value into the hole. -/
theorem perm_set_set (v : List Node) (h p : Nat) (x : Node) (hh : h < v.length)
    (hp : p < v.length) :
    ((v.set h (v.getD p Node.null)).set p x).Perm (v.set h x) := by
  by_cases hph : p = h
  · subst hph
    rw [List.set_set]
  · rw [List.perm_iff_count]
    intro b
    have h1 := count_set_add (v.set h (v.getD p Node.null)) p x b (by simpa using hp)
    have h2 := count_set_add v h (v.getD p Node.null) b hh
    have h3 := count_set_add v h x b hh
    rw [getD_set_ne v h p _ (Ne.symm hph)] at h1
    omega

theorem perm_pushHeapLoop (value : Node) (fuel : Nat) : ∀ (v : List Node) (holeIndex : Nat),
    holeIndex < v.length →
    (pushHeapLoop value 0 fuel v holeIndex).Perm (v.set holeIndex value) := by
  induction fuel with
  | zero => intro v h _; exact List.Perm.refl _
  | succ fuel ih =>
    intro v h hh
    rw [pushHeapLoop_succ]
    split
    · have hp : (h - 1) / 2 < v.length := by omega
      exact (ih _ _ (by simpa using hp)).trans (perm_set_set v h _ value hh hp)
    · exact List.Perm.refl _

theorem perm_push_heap (v : List Node) (h : v ≠ []) : (push_heap v).Perm v := by
  unfold push_heap push_heap_aux
  have hl : 0 < v.length := List.length_pos.2 h
  refine (perm_pushHeapLoop _ _ v (v.length - 1) (by omega)).trans ?_
  rw [List.perm_iff_count]
  intro b
  have := count_set_add v (v.length - 1) (v.getD (v.length - 1) Node.null) b (by omega)
  omega

theorem perm_pq_push (pq : List Node) (x : Node) : (pq_push pq x).Perm (x :: pq) := by
  unfold pq_push
  exact (perm_push_heap _ (by simp)).trans (List.perm_append_singleton x pq)


/-! ## The priority queue stays a heap -/

theorem keyAt_set_eq (v : List Node) (i : Nat) (x : Node) (h : i < v.length) :
    keyAt (v.set i x) i = x.freq := by
  unfold keyAt; rw [getD_set_eq v i x h]

theorem keyAt_set_ne (v : List Node) (i j : Nat) (x : Node) (h : i ≠ j) :
    keyAt (v.set i x) j = keyAt v j := by
  unfold keyAt; rw [getD_set_ne v i j x h]

theorem compare_eq_true_iff (a b : Node) : Compare a b = true ↔ b.freq < a.freq := by
  unfold Compare; simp

/-- Filling the hole with the pending value gives a heap once the parent of the hole is not
above the value. -/
theorem isHeapN_set_hole (n : Nat) (v : List Node) (h : Nat) (x : Node)
    (hn : n ≤ v.length) (hh : h < n)
    (hex : HeapExcept n v h) (hval : ValueOK n v h x)
    (hpar : 0 < h → keyAt v ((h - 1) / 2) ≤ x.freq) :
    IsHeapN n (v.set h x) := by
  intro i hi0 hin
  by_cases hih : i = h
  · subst hih
    rw [keyAt_set_eq v i x (by omega), keyAt_set_ne v i _ x (by omega)]
    exact hpar hi0
  · by_cases hpi : (i - 1) / 2 = h
    · rw [hpi, keyAt_set_eq v h x (by omega), keyAt_set_ne v h i x (Ne.symm hih)]
      exact hval i hi0 hin hpi
    · rw [keyAt_set_ne v h _ x (Ne.symm hpi), keyAt_set_ne v h i x (Ne.symm hih)]
      exact hex i hi0 hin hih hpi

/-- The loop of `__push_heap` with `topIndex = 0` turns a heap with a hole into a heap. -/
theorem isHeapN_pushHeapLoop (n : Nat) (x : Node) (fuel : Nat) :
    ∀ (v : List Node) (h : Nat), h ≤ fuel → n ≤ v.length → h < n →
    HeapExcept n v h → GrandOK n v h → ValueOK n v h x →
    IsHeapN n (pushHeapLoop x 0 fuel v h) := by
  induction fuel with
  | zero =>
    intro v h hf hn hh hex _ hval
    have h0 : h = 0 := by omega
    subst h0
    exact isHeapN_set_hole n v 0 x hn hh hex hval (fun h => absurd h (by decide))
  | succ fuel ih =>
    intro v h hf hn hh hex hgr hval
    rw [pushHeapLoop_succ]
    by_cases hg : h > 0 ∧ Compare (v.getD ((h - 1) / 2) Node.null) x = true
    · rw [if_pos hg]
      obtain ⟨hpos, hcmp⟩ := hg
      rw [compare_eq_true_iff] at hcmp
      have hcmp' : x.freq < keyAt v ((h - 1) / 2) := hcmp
      have hp : (h - 1) / 2 < h := by omega
      have hkp : keyAt (v.set h (v.getD ((h - 1) / 2) Node.null)) h = keyAt v ((h - 1) / 2) := by
        rw [keyAt_set_eq v h _ (by omega)]; rfl
      apply ih _ _ (by omega) (by simpa using hn) (by omega)
      · -- HeapExcept for the new hole
        intro i hi0 hin hip hpip
        have hih : i ≠ h := by
          intro e; subst e; exact hpip rfl
        rw [keyAt_set_ne v h i _ (Ne.symm hih)]
        by_cases hpi : (i - 1) / 2 = h
        · rw [hpi, hkp]
          exact hgr hpos i hi0 hin hpi
        · rw [keyAt_set_ne v h _ _ (Ne.symm hpi)]
          exact hex i hi0 hin hih hpi
      · -- GrandOK for the new hole
        intro hp0 c hc0 hcn hpc
        have hpp : ((h - 1) / 2 - 1) / 2 ≠ h := by omega
        rw [keyAt_set_ne v h _ _ (Ne.symm hpp)]
        have h1 : keyAt v (((h - 1) / 2 - 1) / 2) ≤ keyAt v ((h - 1) / 2) :=
          hex ((h - 1) / 2) hp0 (by omega) (by omega) hpp
        by_cases hch : c = h
        · subst hch; rw [hkp]; exact h1
        · rw [keyAt_set_ne v h c _ (Ne.symm hch)]
          have h2 : keyAt v ((c - 1) / 2) ≤ keyAt v c := hex c hc0 hcn hch (by omega)
          rw [hpc] at h2
          exact le_trans h1 h2
      · -- ValueOK for the new hole
        intro c hc0 hcn hpc
        by_cases hch : c = h
        · subst hch; rw [hkp]; exact le_of_lt hcmp'
        · rw [keyAt_set_ne v h c _ (Ne.symm hch)]
          have h2 : keyAt v ((c - 1) / 2) ≤ keyAt v c := hex c hc0 hcn hch (by omega)
          rw [hpc] at h2
          exact le_trans (le_of_lt hcmp') h2
    · rw [if_neg hg]
      apply isHeapN_set_hole n v h x hn hh hex hval
      intro hpos
      have : ¬ Compare (v.getD ((h - 1) / 2) Node.null) x = true := fun hc => hg ⟨hpos, hc⟩
      rw [compare_eq_true_iff] at this
      exact not_lt.1 this

theorem keyAt_append_left (pq : List Node) (x : Node) (i : Nat) (h : i < pq.length) :
    keyAt (pq ++ [x]) i = keyAt pq i := by
  unfold keyAt; rw [List.getD_append _ _ _ _ h]

theorem isHeap_pq_push (pq : List Node) (x : Node) (h : IsHeap pq) : IsHeap (pq_push pq x) := by
  unfold IsHeap pq_push
  rw [length_push_heap]
  unfold push_heap push_heap_aux
  have hlen : (pq ++ [x]).length = pq.length + 1 := by simp
  rw [hlen]
  apply isHeapN_pushHeapLoop _ _ _ _ _ (le_refl _) (by rw [hlen]) (by omega)
  · intro i hi0 hin hih hpi
    have hi : i < pq.length := by
      simp only [Nat.add_sub_cancel] at hih; omega
    rw [keyAt_append_left pq x i hi, keyAt_append_left pq x _ (by omega)]
    exact h i hi0 hi
  · intro _ c hc0 hcn hpc
    simp only [Nat.add_sub_cancel] at hpc; omega
  · intro c hc0 hcn hpc
    simp only [Nat.add_sub_cancel] at hpc; omega

/-- One step of the `__adjust_heap` loop: the child `c` that is not above its sibling moves into
the hole `h`, and `c` becomes the hole. -/
theorem down_step (n : Nat) (v : List Node) (h c : Nat) (hn : n ≤ v.length) (hh : h < n)
    (hc : c = 2 * h + 1 ∨ c = 2 * h + 2) (hcn : c < n)
    (hmin : ∀ d, (d = 2 * h + 1 ∨ d = 2 * h + 2) → d < n → keyAt v c ≤ keyAt v d)
    (hex : HeapExcept n v h) (hgr : GrandOK n v h) :
    HeapExcept n (v.set h (v.getD c Node.null)) c ∧ GrandOK n (v.set h (v.getD c Node.null)) c := by
  have hkh : keyAt (v.set h (v.getD c Node.null)) h = keyAt v c := by
    rw [keyAt_set_eq v h _ (by omega)]; rfl
  have hpc : (c - 1) / 2 = h := by omega
  have hc0 : 0 < c := by omega
  constructor
  · intro i hi0 hin hic hpic
    by_cases hih : i = h
    · subst hih
      rw [hkh, keyAt_set_ne v i _ _ (by omega)]
      exact hgr hi0 c hc0 hcn hpc
    · rw [keyAt_set_ne v h i _ (Ne.symm hih)]
      by_cases hpi : (i - 1) / 2 = h
      · rw [hpi, hkh]
        exact hmin i (by omega) hin
      · rw [keyAt_set_ne v h _ _ (Ne.symm hpi)]
        exact hex i hi0 hin hih hpi
  · intro _ d hd0 hdn hpd
    rw [hpc, hkh, keyAt_set_ne v h d _ (by omega)]
    have := hex d hd0 hdn (by omega) (by omega)
    rw [hpd] at this
    exact this

/-- The loop of `__adjust_heap` started at a hole `h`: it stops at a hole without a right child,
keeps the heap order around the hole, rearranges only the slots below `n`, and keeps the length. -/
theorem adjustLoop_spec (n fuel : Nat) : ∀ (v : List Node) (h : Nat),
    n ≤ fuel + h → n ≤ v.length → h < n → HeapExcept n v h → GrandOK n v h →
    (adjustLoop n fuel v h h).2.1 = (adjustLoop n fuel v h h).2.2 ∧
    (adjustLoop n fuel v h h).2.1 < n ∧
    ¬ (adjustLoop n fuel v h h).2.1 < (n - 1) / 2 ∧
    HeapExcept n (adjustLoop n fuel v h h).1 (adjustLoop n fuel v h h).2.1 ∧
    GrandOK n (adjustLoop n fuel v h h).1 (adjustLoop n fuel v h h).2.1 ∧
    (∀ x, (((adjustLoop n fuel v h h).1).set (adjustLoop n fuel v h h).2.1 x).Perm (v.set h x)) ∧
    (∀ j, n ≤ j → ((adjustLoop n fuel v h h).1).getD j Node.null = v.getD j Node.null) := by
  induction fuel with
  | zero =>
    intro v h hf hn hh hex hgr
    have e : adjustLoop n 0 v h h = (v, h, h) := rfl
    rw [e]
    exact ⟨rfl, hh, by omega, hex, hgr, fun x => List.Perm.refl _, fun j _ => rfl⟩
  | succ fuel ih =>
    intro v h hf hn hh hex hgr
    rw [adjustLoop_succ]
    by_cases hg : h < (n - 1) / 2
    · rw [if_pos hg]
      have key : ∀ c, (c = 2 * h + 1 ∨ c = 2 * h + 2) →
          (∀ d, (d = 2 * h + 1 ∨ d = 2 * h + 2) → d < n → keyAt v c ≤ keyAt v d) →
          (adjustLoop n fuel (v.set h (v.getD c Node.null)) c c).2.1 =
            (adjustLoop n fuel (v.set h (v.getD c Node.null)) c c).2.2 ∧
          (adjustLoop n fuel (v.set h (v.getD c Node.null)) c c).2.1 < n ∧
          ¬ (adjustLoop n fuel (v.set h (v.getD c Node.null)) c c).2.1 < (n - 1) / 2 ∧
          HeapExcept n (adjustLoop n fuel (v.set h (v.getD c Node.null)) c c).1
            (adjustLoop n fuel (v.set h (v.getD c Node.null)) c c).2.1 ∧
          GrandOK n (adjustLoop n fuel (v.set h (v.getD c Node.null)) c c).1
            (adjustLoop n fuel (v.set h (v.getD c Node.null)) c c).2.1 ∧
          (∀ x, (((adjustLoop n fuel (v.set h (v.getD c Node.null)) c c).1).set
            (adjustLoop n fuel (v.set h (v.getD c Node.null)) c c).2.1 x).Perm (v.set h x)) ∧
          (∀ j, n ≤ j → ((adjustLoop n fuel (v.set h (v.getD c Node.null)) c c).1).getD j Node.null
            = v.getD j Node.null) := by
        intro c hc hmin
        have hcn : c < n := by omega
        obtain ⟨e1, e2⟩ := down_step n v h c hn hh hc hcn hmin hex hgr
        obtain ⟨r1, r2, r3, r4, r5, r6, r7⟩ :=
          ih (v.set h (v.getD c Node.null)) c (by omega) (by simpa using hn) hcn e1 e2
        refine ⟨r1, r2, r3, r4, r5, fun x => ?_, fun j hj => ?_⟩
        · exact (r6 x).trans (perm_set_set v h c x (by omega) (by omega))
        · rw [r7 j hj, getD_set_ne v h j _ (by omega)]
      by_cases hc : Compare (v.getD (2 * (h + 1)) Node.null)
          (v.getD (2 * (h + 1) - 1) Node.null) = true
      · simp only [if_pos hc]
        have hlt : keyAt v (2 * h + 1) < keyAt v (2 * h + 2) := by
          rw [compare_eq_true_iff] at hc; exact hc
        have e : 2 * (h + 1) - 1 = 2 * h + 1 := by omega
        rw [e]
        apply key (2 * h + 1) (Or.inl rfl)
        intro d hd _
        rcases hd with rfl | rfl
        · exact le_refl _
        · exact le_of_lt hlt
      · simp only [if_neg hc]
        have hge : keyAt v (2 * h + 2) ≤ keyAt v (2 * h + 1) := by
          rw [compare_eq_true_iff] at hc; exact not_lt.1 hc
        have e : 2 * (h + 1) = 2 * h + 2 := by omega
        rw [e]
        apply key (2 * h + 2) (Or.inr rfl)
        intro d hd _
        rcases hd with rfl | rfl
        · exact hge
        · exact le_refl _
    · rw [if_neg hg]
      exact ⟨rfl, hh, hg, hex, hgr, fun x => List.Perm.refl _, fun j _ => rfl⟩

theorem getD_pushHeapLoop_above (x : Node) (fuel : Nat) : ∀ (v : List Node) (h j : Nat),
    h < j → (pushHeapLoop x 0 fuel v h).getD j Node.null = v.getD j Node.null := by
  induction fuel with
  | zero => intro v h j hj; exact getD_set_ne v h j x (by omega)
  | succ fuel ih =>
    intro v h j hj
    rw [pushHeapLoop_succ]
    split
    · rw [ih _ _ j (by omega), getD_set_ne v h j _ (by omega)]
    · exact getD_set_ne v h j x (by omega)

/-- The function `__adjust_heap` called at the root of a heap of `n` slots whose root is a hole:
the pending value is placed so that the first `n` slots form a heap again. -/
theorem adjust_heap_spec (n : Nat) (v : List Node) (x : Node)
    (h1 : 1 ≤ n) (hn : n ≤ v.length) (hex : HeapExcept n v 0) :
    IsHeapN n (adjust_heap v 0 n x) ∧ (adjust_heap v 0 n x).Perm (v.set 0 x) ∧
    (∀ j, n ≤ j → (adjust_heap v 0 n x).getD j Node.null = v.getD j Node.null) := by
  have hgr0 : GrandOK n v 0 := fun h => absurd h (by decide)
  obtain ⟨r1, r2, r3, r4, r5, r6, r7⟩ := adjustLoop_spec n n v 0 (by omega) hn (by omega) hex hgr0
  have hlen : (adjustLoop n n v 0 0).1.length = v.length := length_adjustLoop n n v 0 0
  unfold adjust_heap
  simp only
  generalize adjustLoop n n v 0 0 = r at r1 r2 r3 r4 r5 r6 r7 hlen
  obtain ⟨v1, hole, sc⟩ := r
  simp only at r1 r2 r3 r4 r5 r6 r7 hlen
  subst r1
  dsimp only
  by_cases hs : n % 2 = 0 ∧ hole = (n - 2) / 2
  · rw [if_pos hs]
    obtain ⟨hev, hhole⟩ := hs
    have hc : 2 * (hole + 1) - 1 = 2 * hole + 1 := by omega
    rw [hc]
    have hcn : 2 * hole + 1 < n := by omega
    obtain ⟨e1, e2⟩ := down_step n v1 hole (2 * hole + 1) (by omega) r2 (Or.inl rfl) hcn
      (by
        intro d hd hdn
        rcases hd with rfl | rfl
        · exact le_refl _
        · omega) r4 r5
    refine ⟨?_, ?_, ?_⟩
    · unfold push_heap_aux
      apply isHeapN_pushHeapLoop n x _ _ _ (le_refl _) (by simp; omega) hcn e1 e2
      intro c hc0 hcn' hpc
      omega
    · unfold push_heap_aux
      refine (perm_pushHeapLoop x _ _ _ (by simp; omega)).trans ?_
      exact (perm_set_set v1 hole (2 * hole + 1) x (by omega) (by omega)).trans (r6 x)
    · intro j hj
      unfold push_heap_aux
      rw [getD_pushHeapLoop_above x _ _ _ j (by omega), getD_set_ne v1 hole j _ (by omega), r7 j hj]
  · rw [if_neg hs]
    refine ⟨?_, ?_, ?_⟩
    · unfold push_heap_aux
      apply isHeapN_pushHeapLoop n x _ _ _ (le_refl _) (by omega) r2 r4 r5
      intro c hc0 hcn' hpc
      omega
    · unfold push_heap_aux
      exact (perm_pushHeapLoop x _ _ _ (by omega)).trans (r6 x)
    · intro j hj
      unfold push_heap_aux
      rw [getD_pushHeapLoop_above x _ _ _ j (by omega), r7 j hj]

theorem set_getD_self (v : List Node) (i : Nat) : v.set i (v.getD i Node.null) = v := by
  induction v generalizing i with
  | nil => rfl
  | cons a v ih =>
    cases i with
    | zero => rfl
    | succ i => simp only [List.set_cons_succ, List.getD_cons_succ, ih]

theorem getD_dropLast (v : List Node) (i : Nat) (h : i + 1 < v.length) :
    v.dropLast.getD i Node.null = v.getD i Node.null := by
  induction v generalizing i with
  | nil => rfl
  | cons a v ih =>
    cases v with
    | nil => simp at h
    | cons b w =>
      cases i with
      | zero => rfl
      | succ i =>
        simp only [List.dropLast_cons₂, List.getD_cons_succ]
        exact ih i (by simpa using h)

theorem dropLast_append_getD (v : List Node) (h : v ≠ []) :
    v.dropLast ++ [v.getD (v.length - 1) Node.null] = v := by
  have := List.dropLast_append_getLast h
  have e : v.getLast h = v.getD (v.length - 1) Node.null := by
    rw [List.getLast_eq_getElem, List.getD_eq_getElem]
  rw [← e]; exact this

theorem headD_eq_getD (v : List Node) : v.headD Node.null = v.getD 0 Node.null := by
  cases v <;> rfl

/-- The member `pop` of a non-empty heap removes its first element and leaves a heap. -/
theorem pq_pop_spec (pq : List Node) (hne : pq ≠ []) (hheap : IsHeap pq) :
    IsHeap (pq_pop pq) ∧ pq.Perm (pq.headD Node.null :: pq_pop pq) := by
  have hpos : 0 < pq.length := List.length_pos.2 hne
  unfold pq_pop pop_heap
  by_cases h1 : pq.length > 1
  · rw [if_pos h1]
    simp only
    have hex : HeapExcept (pq.length - 1) (pq.set (pq.length - 1) (pq.getD 0 Node.null)) 0 := by
      intro i hi0 hin _ _
      rw [keyAt_set_ne _ _ _ _ (by omega), keyAt_set_ne _ _ _ _ (by omega)]
      exact hheap i hi0 (by omega)
    obtain ⟨s1, s2, s3⟩ := adjust_heap_spec (pq.length - 1)
      (pq.set (pq.length - 1) (pq.getD 0 Node.null)) (pq.getD (pq.length - 1) Node.null)
      (by omega) (by simp) hex
    have hlen := length_adjust_heap (pq.set (pq.length - 1) (pq.getD 0 Node.null)) 0
      (pq.length - 1) (pq.getD (pq.length - 1) Node.null)
    rw [List.length_set] at hlen
    generalize adjust_heap (pq.set (pq.length - 1) (pq.getD 0 Node.null)) 0
      (pq.length - 1) (pq.getD (pq.length - 1) Node.null) = res at s1 s2 s3 hlen
    have hlast : res.getD (res.length - 1) Node.null = pq.getD 0 Node.null := by
      rw [hlen, s3 _ (le_refl _), getD_set_eq _ _ _ (by omega)]
    have hres : res ≠ [] := by
      intro e; rw [e] at hlen; simp at hlen; omega
    constructor
    · unfold IsHeap
      rw [List.length_dropLast, hlen]
      intro i hi0 hin
      unfold keyAt
      rw [getD_dropLast res i (by omega), getD_dropLast res _ (by omega)]
      exact s1 i hi0 hin
    · have hp1 : (pq.set (pq.length - 1) (pq.getD 0 Node.null)).set 0
          (pq.getD (pq.length - 1) Node.null) |>.Perm pq := by
        have := perm_set_set pq (pq.length - 1) 0 (pq.getD (pq.length - 1) Node.null)
          (by omega) (by omega)
        rw [set_getD_self] at this
        exact this
      have hp2 : res.Perm pq := s2.trans hp1
      have hsplit := dropLast_append_getD res hres
      rw [hlast] at hsplit
      rw [headD_eq_getD]
      have hp3 : (pq.getD 0 Node.null :: res.dropLast).Perm res := by
        rw [← hsplit] 
        simp only [List.dropLast_concat]
        exact (List.perm_append_singleton _ _).symm
      exact (hp3.trans hp2).symm
  · rw [if_neg h1]
    cases pq with
    | nil => exact absurd rfl hne
    | cons a t =>
      cases t with
      | nil =>
        refine ⟨?_, List.Perm.refl _⟩
        intro i hi0 hin
        simp at hin
      | cons b w => simp at h1

theorem isHeap_nil : IsHeap [] := by
  intro i _ hin; simp at hin

/-- The first element of a heap is not above any element of the heap. -/
theorem isHeap_top_min (pq : List Node) (hheap : IsHeap pq) :
    ∀ x ∈ pq, (pq.headD Node.null).freq ≤ x.freq := by
  have key : ∀ i, i < pq.length → keyAt pq 0 ≤ keyAt pq i := by
    intro i
    induction i using Nat.strong_induction_on with
    | _ i ih =>
      intro hi
      by_cases h0 : i = 0
      · subst h0; exact le_refl _
      · have h1 := ih ((i - 1) / 2) (by omega) (by omega)
        have h2 := hheap i (by omega) hi
        exact le_trans h1 h2
  intro x hx
  obtain ⟨i, hi, rfl⟩ := List.getElem_of_mem hx
  have := key i hi
  unfold keyAt at this
  rw [headD_eq_getD]
  rw [List.getD_eq_getElem _ _ hi] at this
  exact this


/-! ## The merge loop -/

theorem buildHuffmanTree_eq (freqMap : List (Int × Int)) :
    buildHuffmanTree freqMap = pq_top (mergeLoop (leafQueue freqMap).length (leafQueue freqMap)) :=
  rfl

theorem mergeLoop_succ (fuel : Nat) (pq : List Node) :
    mergeLoop (fuel + 1) pq =
      if pq.length > 1 then
        mergeLoop fuel (pq_push (pq_pop (pq_pop pq))
          (combine (pq.headD Node.null) ((pq_pop pq).headD Node.null)))
      else pq := rfl

theorem isHeap_foldl_push {α : Type} (f : α → Node) (l : List α) : ∀ (pq : List Node),
    IsHeap pq → IsHeap (l.foldl (fun pq entry => pq_push pq (f entry)) pq) := by
  induction l with
  | nil => intro pq h; exact h
  | cons a l ih => intro pq h; exact ih _ (isHeap_pq_push pq (f a) h)

theorem perm_foldl_push {α : Type} (f : α → Node) (l : List α) : ∀ (pq : List Node),
    (l.foldl (fun pq entry => pq_push pq (f entry)) pq).Perm (pq ++ l.map f) := by
  induction l with
  | nil => intro pq; simp
  | cons a l ih =>
    intro pq
    simp only [List.foldl_cons, List.map_cons]
    refine (ih _).trans ?_
    have h1 : (pq_push pq (f a)).Perm (pq ++ [f a]) :=
      (perm_pq_push pq (f a)).trans (List.perm_append_singleton _ _).symm
    have h2 := List.Perm.append_right (List.map f l) h1
    simpa using h2

theorem isHeap_leafQueue (freqMap : List (Int × Int)) : IsHeap (leafQueue freqMap) :=
  isHeap_foldl_push _ freqMap [] isHeap_nil

theorem perm_leafQueue (freqMap : List (Int × Int)) :
    (leafQueue freqMap).Perm
      (freqMap.map (fun entry => Node.mk entry.2 entry.1 Node.null Node.null)) := by
  have := perm_foldl_push (fun entry : Int × Int => Node.mk entry.2 entry.1 Node.null Node.null)
    freqMap []
  simpa [leafQueue] using this

/-- What one iteration of the merge loop does to a heap with more than one node. -/
theorem merge_step (pq : List Node) (hheap : IsHeap pq) (hlen : pq.length > 1) :
    pq.Perm (pq.headD Node.null :: (pq_pop pq).headD Node.null :: pq_pop (pq_pop pq)) ∧
    (pq_push (pq_pop (pq_pop pq)) (combine (pq.headD Node.null) ((pq_pop pq).headD Node.null))).Perm
      (combine (pq.headD Node.null) ((pq_pop pq).headD Node.null) :: pq_pop (pq_pop pq)) ∧
    IsHeap (pq_push (pq_pop (pq_pop pq))
      (combine (pq.headD Node.null) ((pq_pop pq).headD Node.null))) ∧
    (pq.headD Node.null).freq ≤ ((pq_pop pq).headD Node.null).freq ∧
    (∀ x ∈ pq_pop (pq_pop pq), ((pq_pop pq).headD Node.null).freq ≤ x.freq) := by
  have hne : pq ≠ [] := by intro e; rw [e] at hlen; simp at hlen
  obtain ⟨hh1, hp1⟩ := pq_pop_spec pq hne hheap
  have hne1 : pq_pop pq ≠ [] := by
    intro e
    have := length_pq_pop pq
    rw [e] at this; simp at this; omega
  obtain ⟨hh2, hp2⟩ := pq_pop_spec (pq_pop pq) hne1 hh1
  refine ⟨hp1.trans (List.Perm.cons _ hp2), perm_pq_push _ _, isHeap_pq_push _ _ hh2, ?_, ?_⟩
  · apply isHeap_top_min pq hheap
    have : (pq_pop pq).headD Node.null ∈ pq_pop pq := by
      cases h : pq_pop pq with
      | nil => exact absurd h hne1
      | cons a t => simp
    exact hp1.symm.subset (List.mem_cons_of_mem _ this)
  · intro x hx
    apply isHeap_top_min (pq_pop pq) hh1
    exact hp2.symm.subset (List.mem_cons_of_mem _ hx)

/-- An invariant of the queue that holds for the leaves and is kept by every iteration holds for
the final queue; the final queue is a heap with the same property. -/
theorem mergeLoop_invariant (P : List Node → Prop)
    (hstep : ∀ pq, IsHeap pq → pq.length > 1 → P pq →
      P (pq_push (pq_pop (pq_pop pq)) (combine (pq.headD Node.null) ((pq_pop pq).headD Node.null))))
    (fuel : Nat) : ∀ pq, IsHeap pq → P pq → P (mergeLoop fuel pq) ∧ IsHeap (mergeLoop fuel pq) := by
  induction fuel with
  | zero => intro pq hh hp; exact ⟨hp, hh⟩
  | succ fuel ih =>
    intro pq hh hp
    rw [mergeLoop_succ]
    by_cases hlen : pq.length > 1
    · rw [if_pos hlen]
      exact ih _ (merge_step pq hh hlen).2.2.1 (hstep pq hh hlen hp)
    · rw [if_neg hlen]; exact ⟨hp, hh⟩

theorem orderedTree_combine (l r : Node) (hl : OrderedTree l) (hr : OrderedTree r)
    (h : l.freq ≤ r.freq) : OrderedTree (combine l r) := by
  unfold combine
  simp only [OrderedTree]
  exact ⟨Or.inr h, hl, hr⟩

theorem mem_headD (pq : List Node) (h : pq ≠ []) : pq.headD Node.null ∈ pq := by
  cases pq with
  | nil => exact absurd rfl h
  | cons a t => simp

theorem mergeTrace_ordered (fuel : Nat) : ∀ pq, IsHeap pq →
    ∀ it ∈ mergeTrace fuel pq,
      it.1.freq ≤ it.2.1.freq ∧ ∀ x ∈ it.2.2, it.2.1.freq ≤ x.freq := by
  induction fuel with
  | zero => intro pq _ it hit; simp [mergeTrace] at hit
  | succ fuel ih =>
    intro pq hh it hit
    unfold mergeTrace at hit
    by_cases hlen : pq.length > 1
    · rw [if_pos hlen] at hit
      obtain ⟨_, _, s3, s4, s5⟩ := merge_step pq hh hlen
      rcases List.mem_cons.1 hit with rfl | hit
      · exact ⟨s4, s5⟩
      · exact ih _ s3 it hit
    · rw [if_neg hlen] at hit; simp at hit

/-- C14: in every iteration of the merge loop of `buildHuffmanTree` the first-extracted node
(the left child) and the second-extracted node (the right child) satisfy
`left.freq <= right.freq <= freq` of every node still in the queue, and in the returned tree
every node with children has `left.freq <= right.freq`. -/
theorem merge_extracts_lowest_two (freqMap : List (Int × Int)) :
    (∀ it ∈ mergeTrace (leafQueue freqMap).length (leafQueue freqMap),
      it.1.freq ≤ it.2.1.freq ∧ ∀ x ∈ it.2.2, it.2.1.freq ≤ x.freq) ∧
    (∀ root, buildHuffmanTree freqMap = some root → OrderedTree root) := by
  refine ⟨mergeTrace_ordered _ _ (isHeap_leafQueue freqMap), ?_⟩
  intro root hroot
  have hinv := mergeLoop_invariant (fun pq => ∀ x ∈ pq, OrderedTree x)
    (by
      intro pq hh hlen hp x hx
      obtain ⟨s1, s2, _, s4, _⟩ := merge_step pq hh hlen
      rcases List.mem_cons.1 (s2.subset hx) with rfl | hx2
      · apply orderedTree_combine _ _ _ _ s4
        · exact hp _ (s1.symm.subset (by simp))
        · exact hp _ (s1.symm.subset (by simp))
      · exact hp _ (s1.symm.subset (by simp [hx2])))
    (leafQueue freqMap).length (leafQueue freqMap) (isHeap_leafQueue freqMap)
    (by
      intro x hx
      have := (perm_leafQueue freqMap).subset hx
      obtain ⟨e, _, rfl⟩ := List.mem_map.1 this
      simp [OrderedTree])
  rw [buildHuffmanTree_eq] at hroot
  unfold pq_top at hroot
  exact hinv.1 root (List.mem_of_mem_head? hroot)


/-! ## Shape and frequencies of the tree -/

theorem sumTree_ne_null (t : Node) (h : SumTree t) : t ≠ Node.null := by
  intro e; subst e; exact h

theorem leaves_combine (l r : Node) (hl : l ≠ Node.null) :
    leaves (combine l r) = leaves l ++ leaves r := by
  unfold combine
  cases l with
  | null => exact absurd rfl hl
  | mk f c a b => simp [leaves]

theorem freq_combine (l r : Node) : (combine l r).freq = wrapInt32 (l.freq + r.freq) := rfl

theorem sumInv_step (freqMap : List (Int × Int)) (htot : sumCounts freqMap < 2147483648)
    (pq : List Node) (hheap : IsHeap pq) (hlen : pq.length > 1) (h : SumInv freqMap pq) :
    SumInv freqMap (pq_push (pq_pop (pq_pop pq))
      (combine (pq.headD Node.null) ((pq_pop pq).headD Node.null))) := by
  obtain ⟨s1, s2, _, _, _⟩ := merge_step pq hheap hlen
  obtain ⟨hall, hleaves, hsum⟩ := h
  generalize pq.headD Node.null = l at s1 s2
  generalize (pq_pop pq).headD Node.null = r at s1 s2
  generalize pq_pop (pq_pop pq) = pq2 at s1 s2
  have hl := hall l (s1.symm.subset (by simp))
  have hr := hall r (s1.symm.subset (by simp))
  have hrest : ∀ x ∈ pq2, SumTree x ∧ 1 ≤ x.freq := fun x hx =>
    hall x (s1.symm.subset (by simp [hx]))
  have hsum1 : l.freq + (r.freq + (pq2.map Node.freq).sum) = sumCounts freqMap := by
    rw [← hsum, (s1.map Node.freq).sum_eq]; simp
  have hnn : 0 ≤ (pq2.map Node.freq).sum := by
    apply List.sum_nonneg
    intro a ha
    obtain ⟨x, hx, rfl⟩ := List.mem_map.1 ha
    have := (hrest x hx).2
    omega
  have hfreq : (combine l r).freq = l.freq + r.freq := by
    rw [freq_combine, wrapInt32_of_range _ (by omega) (by omega)]
  refine ⟨?_, ?_, ?_⟩
  · intro x hx
    rcases List.mem_cons.1 (s2.subset hx) with rfl | hx2
    · refine ⟨?_, by rw [hfreq]; omega⟩
      have hf := hfreq
      unfold combine at hf ⊢
      simp only [SumTree]
      exact Or.inr ⟨sumTree_ne_null l hl.1, sumTree_ne_null r hr.1, hf, hl.1, hr.1⟩
    · exact hrest x hx2
  · refine (s2.flatMap_right leaves).trans ?_
    refine List.Perm.trans ?_ ((s1.flatMap_right leaves).symm.trans hleaves)
    simp only [List.flatMap_cons, leaves_combine l r (sumTree_ne_null l hl.1), List.append_assoc]
    exact List.Perm.refl _
  · rw [(s2.map Node.freq).sum_eq]
    simp only [List.map_cons, List.sum_cons, hfreq]
    omega

theorem flatMap_leaves_leaf (l : List (Int × Int)) :
    (l.map (fun entry : Int × Int =>
      Node.mk entry.2 entry.1 Node.null Node.null)).flatMap leaves = l := by
  induction l with
  | nil => rfl
  | cons a t ih =>
    simp only [List.map_cons, List.flatMap_cons, leaves]
    rw [ih]
    rfl

theorem sumInv_leafQueue (freqMap : List (Int × Int)) (hpos : ∀ e ∈ freqMap, 1 ≤ e.2) :
    SumInv freqMap (leafQueue freqMap) := by
  have hp := perm_leafQueue freqMap
  refine ⟨?_, ?_, ?_⟩
  · intro x hx
    obtain ⟨e, he, rfl⟩ := List.mem_map.1 (hp.subset hx)
    exact ⟨by simp [SumTree], hpos e he⟩
  · refine (hp.flatMap_right leaves).trans ?_
    rw [flatMap_leaves_leaf]
  · rw [(hp.map Node.freq).sum_eq, List.map_map]
    rfl

/-- C15: for every non-empty frequency table (counts at least 1) whose total is below 2^31,
`buildHuffmanTree` returns a tree whose leaves are exactly the table entries, each carrying that
entry's symbol and count (so it has as many leaves as the table has entries), in which every
other node has exactly two children and the sum of their frequencies as its frequency, and whose
root frequency is the total of all counts. -/
theorem tree_frequency_invariant (freqMap : List (Int × Int)) (hne : freqMap ≠ [])
    (hpos : ∀ e ∈ freqMap, 1 ≤ e.2) (htot : sumCounts freqMap < 2147483648) :
    ∃ root, buildHuffmanTree freqMap = some root ∧ (leaves root).Perm freqMap ∧
      (leaves root).length = freqMap.length ∧ SumTree root ∧ root.freq = sumCounts freqMap := by
  have hinv := mergeLoop_invariant (SumInv freqMap)
    (fun pq hh hlen hp => sumInv_step freqMap htot pq hh hlen hp)
    (leafQueue freqMap).length (leafQueue freqMap) (isHeap_leafQueue freqMap)
    (sumInv_leafQueue freqMap hpos)
  have hlq : (leafQueue freqMap).length = freqMap.length := by
    have := (perm_leafQueue freqMap).length_eq
    simpa using this
  have hpos' : 0 < freqMap.length := List.length_pos.2 hne
  have hone := length_mergeLoop (leafQueue freqMap).length (leafQueue freqMap) (by omega)
    (Nat.le_succ _)
  rw [buildHuffmanTree_eq]
  generalize mergeLoop (leafQueue freqMap).length (leafQueue freqMap) = res at hinv hone
  match res, hone with
  | [root], _ =>
    obtain ⟨⟨hall, hleaves, hsum⟩, _⟩ := hinv
    refine ⟨root, rfl, ?_, ?_, (hall root (by simp)).1, ?_⟩
    · simpa using hleaves
    · have := hleaves.length_eq
      simpa using this
    · simpa using hsum

/-- Witness for C15 on the frequency table of "aaabbc". -/
theorem tree_frequency_invariant_witness :
    ∃ root, buildHuffmanTree [(97, 3), (98, 2), (99, 1)] = some root ∧
      (leaves root).Perm [(97, 3), (98, 2), (99, 1)] ∧
      (leaves root).length = [((97 : Int), (3 : Int)), (98, 2), (99, 1)].length ∧ SumTree root ∧
      root.freq = sumCounts [(97, 3), (98, 2), (99, 1)] :=
  tree_frequency_invariant [(97, 3), (98, 2), (99, 1)] (by decide) (by decide) (by decide)


/-! ## The decoder's loop and the payload bytes -/

theorem decodeFile_eq_walkBits (root : Node) (input : List Nat) (n : Nat) :
    decodeFile root input n = walkBits root (extractBits n 0 0 input) root [] :=
  decodeLoop_eq_walkBits root n root 0 0 input []

theorem extractBits_eq_map_bitAt (n : Nat) (input : List Nat) (h : (n + 7) / 8 ≤ input.length) :
    extractBits n 0 0 input = (List.range n).map (bitAt input) := by
  rw [extractBits_eq_bitAt n 0 0 input (by decide) (by omega)]
  apply List.map_congr_left
  intro i _
  rw [if_neg (Nat.not_lt_zero i), Nat.sub_zero]

/-- C17: for every tree and declared bit count `n`, two byte sequences that each have at least
`(n + 7) / 8` bytes and agree on their first `n` bits (most significant bit first) give the same
result of `decodeFile`; padding bits and later bytes do not influence it. -/
theorem decodeFile_padding_independent (root : Node) (n : Nat) (b1 b2 : List Nat)
    (h1 : (n + 7) / 8 ≤ b1.length) (h2 : (n + 7) / 8 ≤ b2.length)
    (hag : ∀ i, i < n → bitAt b1 i = bitAt b2 i) :
    decodeFile root b1 n = decodeFile root b2 n := by
  rw [decodeFile_eq_walkBits, decodeFile_eq_walkBits, extractBits_eq_map_bitAt n b1 h1,
    extractBits_eq_map_bitAt n b2 h2]
  congr 1
  apply List.map_congr_left
  intro i hi
  exact hag i (List.mem_range.1 hi)

/-- Witness for C17: the payload of "aaabbc" (9 bits) with its zero padding and with the padding
bits set and a further byte appended. -/
theorem decodeFile_padding_independent_witness :
    (9 + 7) / 8 ≤ [31, 0].length ∧ (9 + 7) / 8 ≤ [31, 127, 255].length ∧
    (∀ i, i < 9 → bitAt [31, 0] i = bitAt [31, 127, 255] i) ∧
    decodeFile (Node.mk 6 0 (Node.mk 3 97 Node.null Node.null)
        (Node.mk 3 0 (Node.mk 1 99 Node.null Node.null) (Node.mk 2 98 Node.null Node.null)))
      [31, 0] 9 =
    decodeFile (Node.mk 6 0 (Node.mk 3 97 Node.null Node.null)
        (Node.mk 3 0 (Node.mk 1 99 Node.null Node.null) (Node.mk 2 98 Node.null Node.null)))
      [31, 127, 255] 9 :=
  ⟨by decide, by decide, by decide,
   decodeFile_padding_independent _ 9 [31, 0] [31, 127, 255] (by decide) (by decide) (by decide)⟩

theorem extractBits_nil (m byte : Nat) : extractBits m byte 0 [] = [] := by
  cases m <;> rfl

/-- Once the input is used up, further iterations extract nothing. -/
theorem extractBits_stop (m n : Nat) : ∀ (byte k : Nat) (input : List Nat),
    n = k + 8 * input.length →
    extractBits (n + m) byte k input = extractBits n byte k input := by
  induction n with
  | zero =>
    intro byte k input h
    have hk : k = 0 := by omega
    have hi : input = [] := by
      cases input with
      | nil => rfl
      | cons a t => simp only [List.length_cons] at h; omega
    subst hk; subst hi
    rw [Nat.zero_add, extractBits_nil]; rfl
  | succ n ih =>
    intro byte k input h
    have e : n + 1 + m = (n + m) + 1 := by omega
    rw [e]
    by_cases hk : k = 0
    · subst hk
      cases input with
      | nil => simp at h
      | cons b rest =>
        rw [extractBits_succ_zero, extractBits_succ_zero,
          ih b 7 rest (by simp only [List.length_cons] at h; omega)]
    · rw [extractBits_succ_pos _ _ _ _ (by omega), extractBits_succ_pos _ _ _ _ (by omega),
        ih byte (k - 1) input (by omega)]

/-- C12 (amended): when the packed bytes are fewer than `(n + 7) / 8`, `decodeFile` stops at
the end of the bytes and ends as it does for the declared bit count `8 * bytes.length`: what was
decoded from the bytes present is the output, and no error is raised for the missing bits. -/
theorem decodeFile_truncated (root : Node) (n : Nat) (bytes : List Nat)
    (h : bytes.length < (n + 7) / 8) :
    decodeFile root bytes n = decodeFile root bytes (8 * bytes.length) := by
  rw [decodeFile_eq_walkBits, decodeFile_eq_walkBits]
  have e : n = 8 * bytes.length + (n - 8 * bytes.length) := by omega
  rw [e, extractBits_stop (n - 8 * bytes.length) (8 * bytes.length) 0 0 bytes (by omega)]

/-- Witness for C12 (amended): one byte where nine bits are declared. -/
theorem decodeFile_truncated_witness :
    [64].length < (9 + 7) / 8 ∧
    decodeFile (Node.mk 2 0 (Node.mk 1 97 Node.null Node.null) (Node.mk 1 98 Node.null Node.null))
      [64] 9 =
    decodeFile (Node.mk 2 0 (Node.mk 1 97 Node.null Node.null) (Node.mk 1 98 Node.null Node.null))
      [64] (8 * [64].length) :=
  ⟨by decide, decodeFile_truncated _ 9 [64] (by decide)⟩

/-- C12 as stated fails: with nine bits declared and one byte (or none) present `decodeFile`
returns normally with the eight symbols (or no symbol) decoded so far. -/
theorem decodeFile_truncated_counterexample :
    decodeFile (Node.mk 2 0 (Node.mk 1 97 Node.null Node.null) (Node.mk 1 98 Node.null Node.null))
      [64] 9 = Decoded.ok [97, 98, 97, 97, 97, 97, 97, 97] ∧
    decodeFile (Node.mk 2 0 (Node.mk 1 97 Node.null Node.null) (Node.mk 1 98 Node.null Node.null))
      [] 9 = Decoded.ok [] := by
  decide

set_option maxRecDepth 1000000 in
/-- C13: on the tree that `importTable` builds from the table bytes 3, 2, 1 and the payload of
"aaabbc" the first bit leads to the leaf of the char 0, which is not recognised as a leaf, and the
second bit makes `decodeFile` read `current->c` through its null child; no check precedes the
read. -/
theorem decodeFile_reads_through_null :
    importTable [3, 2, 1] =
      some (Node.mk 6 0 (Node.mk 3 0 Node.null Node.null)
        (Node.mk 3 0 (Node.mk 1 2 Node.null Node.null) (Node.mk 2 1 Node.null Node.null))) ∧
    (importTable [3, 2, 1]).map (fun root => decodeFile root [31, 0] 9) =
      some (Decoded.nullDeref []) ∧
    (importTable [1]).map (fun root => decodeFile root [128] 1) =
      some (Decoded.nullDeref []) := by
  decide

set_option maxRecDepth 1000000 in
/-- C11: with no entry both tree builders take `pq.top()` of an empty queue, which has no defined
result; neither raises an error.  A table with one entry gives a root that is a leaf. -/
theorem empty_table_no_error :
    buildHuffmanTree [] = none ∧ importTable [] = none ∧
    buildTree (List.replicate 128 0) = none ∧
    (∀ c n : Int, buildHuffmanTree [(c, n)] = some (Node.mk n c Node.null Node.null)) ∧
    importTable [5] = some (Node.mk 5 0 Node.null Node.null) := by
  refine ⟨by decide, by decide, by decide, fun c n => rfl, by decide⟩


/-! ## The logical bit count -/

theorem length_encodeString (codeMap : List (Int × List Bool)) (S : List Int) :
    (encodeString codeMap S).length = (S.map (fun c => (codeAt codeMap c).length)).sum := by
  induction S with
  | nil => rfl
  | cons c rest ih =>
    simp only [encodeString, List.length_append, List.map_cons, List.sum_cons, ih]

theorem sum_over_countFreq (S : List Int) (h : S.length < 2147483648) (g : Int → Nat) :
    ((countFreq S).map (fun e => e.2 * (g e.1 : Int))).sum =
      ((∑ s ∈ S.toFinset, S.count s * g s : Nat) : Int) := by
  obtain ⟨hs, hk, hf, _⟩ :=
    countInv_countFreq S (fun k => lt_of_le_of_lt (List.count_le_length k S) h)
  have h1 : (countFreq S).map (fun e => e.2 * (g e.1 : Int)) =
      (keys (countFreq S)).map (fun k => ((S.count k * g k : Nat) : Int)) := by
    unfold keys
    rw [List.map_map]
    apply List.map_congr_left
    intro e he
    have := mem_freqOf _ e.1 e.2 hs he
    rw [hf] at this
    simp only [Function.comp]
    rw [← this]; push_cast; rfl
  have hnd : (keys (countFreq S)).Nodup := hs.imp (fun h => ne_of_lt h)
  have hfs : (keys (countFreq S)).toFinset = S.toFinset := by
    ext k; simp only [List.mem_toFinset]; exact hk k
  rw [h1, ← List.sum_toFinset _ hnd, hfs]
  push_cast; rfl

/-- C16: for every input the bit count in the payload header is the sum over the chars of the
input of the length of that char's code, that is the sum over the symbols `s` of the input of
(number of occurrences of `s`) times (length of the code of `s`); for inputs of fewer than 2^31
chars this is the sum of count times code length over the entries of the frequency table.  For
"aaabbc" it is 3*1 + 2*2 + 1*2 = 9 bits, packed into 2 bytes. -/
theorem encode_bitCount (S : List Int) :
    (∀ e, encoderMain S = some e →
      e.payload.bitCount = (S.map (fun c => (codeAt e.codeMap c).length)).sum ∧
      e.payload.bitCount = ∑ s ∈ S.toFinset, S.count s * (codeAt e.codeMap s).length ∧
      (S.length < 2147483648 → (e.payload.bitCount : Int) =
        (e.freqMap.map (fun entry => entry.2 * ((codeAt e.codeMap entry.1).length : Int))).sum)) ∧
    (encoderMain [97, 97, 97, 98, 98, 99]).map
      (fun e => (e.payload.bitCount, e.payload.packed.length)) = some (9, 2) := by
  refine ⟨?_, by decide⟩
  intro e he
  unfold encoderMain at he
  simp only at he
  cases hb : buildHuffmanTree (countFreq S) with
  | none => rw [hb] at he; simp at he
  | some root =>
    rw [hb] at he
    simp only [Option.some.injEq] at he
    subst he
    simp only [encode]
    have h1 := length_encodeString (buildCode root [] []) S
    have h2 : (S.map (fun c => (codeAt (buildCode root [] []) c).length)).sum =
        ∑ s ∈ S.toFinset, S.count s * (codeAt (buildCode root [] []) s).length := by
      rw [Finset.sum_list_map_count]
      simp only [smul_eq_mul]
    refine ⟨h1, h1.trans h2, fun hlen => ?_⟩
    rw [sum_over_countFreq S hlen (fun s => (codeAt (buildCode root [] []) s).length), h1, h2]

/-- Witness for C16 on the input "aaabbc". -/
theorem encode_bitCount_witness :
    ∃ e, encoderMain [97, 97, 97, 98, 98, 99] = some e ∧
      e.payload.bitCount =
        (([97, 97, 97, 98, 98, 99] : List Int).map (fun c => (codeAt e.codeMap c).length)).sum ∧
      (e.payload.bitCount : Int) =
        (e.freqMap.map (fun entry => entry.2 * ((codeAt e.codeMap entry.1).length : Int))).sum :=
  match h : encoderMain [97, 97, 97, 98, 98, 99] with
  | some e =>
    ⟨e, rfl, ((encode_bitCount [97, 97, 97, 98, 98, 99]).1 e h).1,
      ((encode_bitCount [97, 97, 97, 98, 98, 99]).1 e h).2.2 (by decide)⟩
  | none => absurd h (by decide)


/-! ## Shape of the tree for arbitrary counts -/

theorem wellShaped_ne_null (t : Node) (h : WellShaped t) : t ≠ Node.null := by
  intro e; subst e; exact h

theorem shapeInv_step (freqMap : List (Int × Int))
    (pq : List Node) (hheap : IsHeap pq) (hlen : pq.length > 1) (h : ShapeInv freqMap pq) :
    ShapeInv freqMap (pq_push (pq_pop (pq_pop pq))
      (combine (pq.headD Node.null) ((pq_pop pq).headD Node.null))) := by
  obtain ⟨s1, s2, _, _, _⟩ := merge_step pq hheap hlen
  obtain ⟨hall, hleaves⟩ := h
  generalize pq.headD Node.null = l at s1 s2
  generalize (pq_pop pq).headD Node.null = r at s1 s2
  generalize pq_pop (pq_pop pq) = pq2 at s1 s2
  have hl := hall l (s1.symm.subset (by simp))
  have hr := hall r (s1.symm.subset (by simp))
  refine ⟨?_, ?_⟩
  · intro x hx
    rcases List.mem_cons.1 (s2.subset hx) with rfl | hx2
    · unfold combine
      simp only [WellShaped]
      exact Or.inr ⟨trivial, hl, hr⟩
    · exact hall x (s1.symm.subset (by simp [hx2]))
  · refine (s2.flatMap_right leaves).trans ?_
    refine List.Perm.trans ?_ ((s1.flatMap_right leaves).symm.trans hleaves)
    simp only [List.flatMap_cons, leaves_combine l r (wellShaped_ne_null l hl), List.append_assoc]
    exact List.Perm.refl _

theorem shapeInv_leafQueue (freqMap : List (Int × Int)) : ShapeInv freqMap (leafQueue freqMap) := by
  have hp := perm_leafQueue freqMap
  refine ⟨?_, ?_⟩
  · intro x hx
    obtain ⟨e, he, rfl⟩ := List.mem_map.1 (hp.subset hx)
    simp [WellShaped]
  · refine (hp.flatMap_right leaves).trans ?_
    rw [flatMap_leaves_leaf]

/-- For every non-empty table `buildHuffmanTree` returns a well-shaped tree whose leaves are
the table entries; it is the only node left in the queue. -/
theorem buildHuffmanTree_shape (freqMap : List (Int × Int)) (hne : freqMap ≠ []) :
    ∃ root, mergeLoop (leafQueue freqMap).length (leafQueue freqMap) = [root] ∧
      buildHuffmanTree freqMap = some root ∧ WellShaped root ∧ (leaves root).Perm freqMap := by
  have hinv := mergeLoop_invariant (ShapeInv freqMap)
    (fun pq hh hlen hp => shapeInv_step freqMap pq hh hlen hp)
    (leafQueue freqMap).length (leafQueue freqMap) (isHeap_leafQueue freqMap)
    (shapeInv_leafQueue freqMap)
  have hlq : (leafQueue freqMap).length = freqMap.length := by
    have := (perm_leafQueue freqMap).length_eq
    simpa using this
  have hpos' : 0 < freqMap.length := List.length_pos.2 hne
  have hone := length_mergeLoop (leafQueue freqMap).length (leafQueue freqMap) (by omega)
    (Nat.le_succ _)
  rw [buildHuffmanTree_eq]
  generalize mergeLoop (leafQueue freqMap).length (leafQueue freqMap) = res at hinv hone
  match res, hone with
  | [root], _ =>
    obtain ⟨⟨hall, hleaves⟩, _⟩ := hinv
    exact ⟨root, rfl, rfl, hall root (by simp), by simpa using hleaves⟩


/-! ## The queue operations only look at frequencies -/

theorem getD_map_node (g : Node → Node) (hnull : g Node.null = Node.null) (v : List Node)
    (i : Nat) : (v.map g).getD i Node.null = g (v.getD i Node.null) := by
  have := List.getD_map (l := v) (d := Node.null) (n := i) g
  rw [hnull] at this
  exact this

theorem compare_map (g : Node → Node) (hfreq : ∀ x, (g x).freq = x.freq) (a b : Node) :
    Compare (g a) (g b) = Compare a b := by
  unfold Compare; rw [hfreq, hfreq]

theorem pushHeapLoop_map (g : Node → Node) (hnull : g Node.null = Node.null)
    (hfreq : ∀ x, (g x).freq = x.freq) (x : Node) (top fuel : Nat) :
    ∀ (v : List Node) (h : Nat),
    pushHeapLoop (g x) top fuel (v.map g) h = (pushHeapLoop x top fuel v h).map g := by
  induction fuel with
  | zero => intro v h; simp [pushHeapLoop, List.map_set]
  | succ fuel ih =>
    intro v h
    rw [pushHeapLoop_succ, pushHeapLoop_succ, getD_map_node g hnull, compare_map g hfreq]
    by_cases hg : h > top ∧ Compare (v.getD ((h - 1) / 2) Node.null) x = true
    · rw [if_pos hg, if_pos hg, ← List.map_set, ih]
    · rw [if_neg hg, if_neg hg, List.map_set]

theorem push_heap_aux_map (g : Node → Node) (hnull : g Node.null = Node.null)
    (hfreq : ∀ x, (g x).freq = x.freq) (v : List Node) (h top : Nat) (x : Node) :
    push_heap_aux (v.map g) h top (g x) = (push_heap_aux v h top x).map g :=
  pushHeapLoop_map g hnull hfreq x top h v h

theorem pq_push_map (g : Node → Node) (hnull : g Node.null = Node.null)
    (hfreq : ∀ x, (g x).freq = x.freq) (pq : List Node) (x : Node) :
    pq_push (pq.map g) (g x) = (pq_push pq x).map g := by
  unfold pq_push push_heap
  have e : pq.map g ++ [g x] = (pq ++ [x]).map g := by simp
  rw [e, getD_map_node g hnull, List.length_map, push_heap_aux_map g hnull hfreq]

theorem adjustLoop_map (g : Node → Node) (hnull : g Node.null = Node.null)
    (hfreq : ∀ x, (g x).freq = x.freq) (len fuel : Nat) :
    ∀ (v : List Node) (h sc : Nat),
    adjustLoop len fuel (v.map g) h sc =
      (((adjustLoop len fuel v h sc).1).map g, (adjustLoop len fuel v h sc).2) := by
  induction fuel with
  | zero => intro v h sc; rfl
  | succ fuel ih =>
    intro v h sc
    rw [adjustLoop_succ, adjustLoop_succ]
    by_cases hg : sc < (len - 1) / 2
    · rw [if_pos hg, if_pos hg]
      simp only [getD_map_node g hnull, compare_map g hfreq]
      rw [← List.map_set, ih]
    · rw [if_neg hg, if_neg hg]

theorem adjust_heap_map (g : Node → Node) (hnull : g Node.null = Node.null)
    (hfreq : ∀ x, (g x).freq = x.freq) (v : List Node) (h len : Nat) (x : Node) :
    adjust_heap (v.map g) h len (g x) = (adjust_heap v h len x).map g := by
  unfold adjust_heap
  simp only
  rw [adjustLoop_map g hnull hfreq]
  simp only
  split
  · rw [getD_map_node g hnull, ← List.map_set, push_heap_aux_map g hnull hfreq]
  · rw [push_heap_aux_map g hnull hfreq]

theorem pq_pop_map (g : Node → Node) (hnull : g Node.null = Node.null)
    (hfreq : ∀ x, (g x).freq = x.freq) (pq : List Node) :
    pq_pop (pq.map g) = (pq_pop pq).map g := by
  unfold pq_pop pop_heap
  rw [List.length_map]
  split
  · simp only
    rw [getD_map_node g hnull, getD_map_node g hnull, ← List.map_set,
      adjust_heap_map g hnull hfreq, List.map_dropLast]
  · rw [List.map_dropLast]

theorem headD_map_node (g : Node → Node) (hnull : g Node.null = Node.null) (pq : List Node) :
    (pq.map g).headD Node.null = g (pq.headD Node.null) := by
  cases pq with
  | nil => exact hnull.symm
  | cons a t => rfl

/-- The merge loop commutes with a frequency-preserving relabelling that respects `combine`. -/
theorem mergeLoop_map (g : Node → Node) (hnull : g Node.null = Node.null)
    (hfreq : ∀ x, (g x).freq = x.freq)
    (hcomb : ∀ l r, WellShaped l → WellShaped r → g (combine l r) = combine (g l) (g r))
    (freqMap : List (Int × Int)) (fuel : Nat) :
    ∀ pq, IsHeap pq → ShapeInv freqMap pq →
    mergeLoop fuel (pq.map g) = (mergeLoop fuel pq).map g := by
  induction fuel with
  | zero => intro pq _ _; rfl
  | succ fuel ih =>
    intro pq hh hinv
    rw [mergeLoop_succ, mergeLoop_succ, List.length_map]
    by_cases hlen : pq.length > 1
    · rw [if_pos hlen, if_pos hlen]
      obtain ⟨s1, _, s3, _, _⟩ := merge_step pq hh hlen
      have hl : WellShaped (pq.headD Node.null) := hinv.1 _ (s1.symm.subset (by simp))
      have hr : WellShaped ((pq_pop pq).headD Node.null) := hinv.1 _ (s1.symm.subset (by simp))
      rw [pq_pop_map g hnull hfreq, pq_pop_map g hnull hfreq, headD_map_node g hnull,
        headD_map_node g hnull, ← hcomb _ _ hl hr, pq_push_map g hnull hfreq]
      exact ih _ s3 (shapeInv_step freqMap pq hh hlen hinv)
    · rw [if_neg hlen, if_neg hlen]


/-! ## The decoder's tree is the encoder's tree with the leaves renumbered -/

theorem buildTree_eq (freq : List Int) :
    buildTree freq = pq_top (mergeLoop (decoderQueue freq 128).length (decoderQueue freq 128)) :=
  rfl

theorem relabel_freq (ρ : Int → Int) (x : Node) : (relabel ρ x).freq = x.freq := by
  cases x with
  | null => rfl
  | mk f c l r =>
    cases l with
    | null =>
      cases r with
      | null => rfl
      | mk _ _ _ _ => rfl
    | mk _ _ _ _ => rfl

theorem relabel_combine (ρ : Int → Int) (l r : Node) (hl : WellShaped l) :
    relabel ρ (combine l r) = combine (relabel ρ l) (relabel ρ r) := by
  unfold combine
  cases l with
  | null => exact absurd hl (by simp [WellShaped])
  | mk f c a b =>
    have e1 := relabel_freq ρ (Node.mk f c a b)
    have e2 := relabel_freq ρ r
    simp only [relabel]
    rw [e1, e2]

theorem importLoop_spec (bytes : List Nat) : ∀ (pre post : List Int),
    bytes.length ≤ post.length →
    importLoop bytes pre.length (pre ++ post) =
      some (pre ++ bytes.map (fun b : Nat => (b : Int)) ++ post.drop bytes.length) := by
  induction bytes with
  | nil => intro pre post _; simp [importLoop]
  | cons b rest ih =>
    intro pre post h
    cases post with
    | nil => simp at h
    | cons p post =>
      have hlt : pre.length < (pre ++ p :: post).length := by simp
      simp only [importLoop, hlt, if_true]
      have e : (pre ++ p :: post).set pre.length (b : Int) = (pre ++ [(b : Int)]) ++ post := by
        simp
      have := ih (pre ++ [(b : Int)]) post (by simpa using h)
      rw [e]
      simp only [List.length_append, List.length_singleton] at this
      rw [this]
      simp

theorem writeTable_eq_snd (freqMap : List (Int × Int))
    (hc : ∀ e ∈ freqMap, 1 ≤ e.2 ∧ e.2 ≤ 255) :
    (writeTable freqMap).map (fun b : Nat => (b : Int)) = freqMap.map Prod.snd := by
  unfold writeTable
  rw [List.map_map]
  apply List.map_congr_left
  intro e he
  have := hc e he
  simp only [Function.comp]
  omega

theorem importLoop_writeTable (freqMap : List (Int × Int)) (hk : freqMap.length ≤ 128)
    (hc : ∀ e ∈ freqMap, 1 ≤ e.2 ∧ e.2 ≤ 255) :
    importLoop (writeTable freqMap) 0 (List.replicate 128 0) =
      some (freqMap.map Prod.snd ++ List.replicate (128 - freqMap.length) 0) := by
  have hl : (writeTable freqMap).length = freqMap.length := by
    unfold writeTable; rw [List.length_map]
  have := importLoop_spec (writeTable freqMap) [] (List.replicate 128 0)
    (by rw [hl, List.length_replicate]; exact hk)
  simp only [List.length_nil, List.nil_append] at this
  rw [this, writeTable_eq_snd freqMap hc, hl, List.drop_replicate]

theorem getD_freqVec (freqMap : List (Int × Int)) (pad m : Nat) :
    (freqMap.map Prod.snd ++ List.replicate pad 0).getD m 0 =
      if h : m < freqMap.length then (freqMap[m]).2 else 0 := by
  by_cases h : m < freqMap.length
  · rw [dif_pos h, List.getD_append _ _ _ _ (by simpa using h), List.getD_eq_getElem _ _ (by simpa using h)]
    simp
  · rw [dif_neg h, List.getD_append_right _ _ _ _ (by simpa using h)]
    simp only [List.getD_eq_getElem?_getD, List.length_map]
    by_cases h2 : m - freqMap.length < pad
    · simp [List.getElem?_replicate, h2]
    · simp [List.getElem?_replicate, h2]

theorem leafQueue_concat (l : List (Int × Int)) (e : Int × Int) :
    leafQueue (l ++ [e]) = pq_push (leafQueue l) (Node.mk e.2 e.1 Node.null Node.null) := by
  simp [leafQueue, List.foldl_append]

theorem decoderQueue_succ (freq : List Int) (m : Nat) :
    decoderQueue freq (m + 1) =
      if freq.getD m 0 > 0 then
        pq_push (decoderQueue freq m) (Node.mk (freq.getD m 0) (m : Int) Node.null Node.null)
      else decoderQueue freq m := by
  simp [decoderQueue, List.range_succ, List.foldl_append]

theorem positionIn_getElem (freqMap : List (Int × Int)) (hnd : (keys freqMap).Nodup) (m : Nat)
    (h : m < freqMap.length) : positionIn freqMap (freqMap[m]).1 = (m : Int) := by
  unfold positionIn
  have hm : m < (keys freqMap).length := by simpa [keys] using h
  have := List.indexOf_getElem hnd m hm
  have e : (keys freqMap)[m] = (freqMap[m]).1 := by simp [keys]
  rw [e] at this
  rw [this]

theorem decoderQueue_eq (freqMap : List (Int × Int)) (pad : Nat)
    (hc : ∀ e ∈ freqMap, 1 ≤ e.2 ∧ e.2 ≤ 255) (hnd : (keys freqMap).Nodup) (m : Nat) :
    decoderQueue (freqMap.map Prod.snd ++ List.replicate pad 0) m =
      (leafQueue (freqMap.take m)).map (relabel (positionIn freqMap)) := by
  induction m with
  | zero => rfl
  | succ m ih =>
    rw [decoderQueue_succ, getD_freqVec, ih]
    by_cases h : m < freqMap.length
    · rw [dif_pos h]
      have hpos := (hc freqMap[m] (List.getElem_mem h)).1
      rw [if_pos (by omega)]
      have ht : freqMap.take (m + 1) = freqMap.take m ++ [freqMap[m]] := by
        rw [List.take_succ, List.getElem?_eq_getElem h]; rfl
      rw [ht, leafQueue_concat, ← pq_push_map _ rfl (relabel_freq _)]
      congr 1
      simp only [relabel]
      rw [positionIn_getElem freqMap hnd m h]
    · rw [dif_neg h, if_neg (by decide)]
      rw [List.take_of_length_le (by omega), List.take_of_length_le (by omega)]

/-- C19: for every frequency table (distinct symbols) with between 1 and 128 entries and every
count between 1 and 255, the tree that `importTable` builds from the persisted table is the tree
of `buildHuffmanTree` with the same shape and the same frequency at every node, in which the leaf
of the i-th symbol of the table holds the char `i`. -/
theorem decoder_tree_relabelled (freqMap : List (Int × Int))
    (hk1 : 1 ≤ freqMap.length) (hk2 : freqMap.length ≤ 128)
    (hc : ∀ e ∈ freqMap, 1 ≤ e.2 ∧ e.2 ≤ 255) (hnd : (keys freqMap).Nodup) :
    ∃ root, buildHuffmanTree freqMap = some root ∧
      importTable (writeTable freqMap) = some (relabel (positionIn freqMap) root) ∧
      (relabel (positionIn freqMap) root).freq = root.freq := by
  have hne : freqMap ≠ [] := by intro e; rw [e] at hk1; simp at hk1
  obtain ⟨root, hml, hroot, _, _⟩ := buildHuffmanTree_shape freqMap hne
  refine ⟨root, hroot, ?_, relabel_freq _ _⟩
  unfold importTable
  rw [importLoop_writeTable freqMap hk2 hc]
  simp only
  rw [buildTree_eq, decoderQueue_eq freqMap _ hc hnd 128, List.take_of_length_le hk2,
    List.length_map,
    mergeLoop_map _ rfl (relabel_freq _) (fun l r hl _ => relabel_combine _ l r hl) freqMap _ _
      (isHeap_leafQueue freqMap) (shapeInv_leafQueue freqMap), hml]
  rfl

/-- Witness for C19 on the frequency table of "aaabbc". -/
theorem decoder_tree_relabelled_witness :
    ∃ root, buildHuffmanTree [(97, 3), (98, 2), (99, 1)] = some root ∧
      importTable (writeTable [(97, 3), (98, 2), (99, 1)]) =
        some (relabel (positionIn [(97, 3), (98, 2), (99, 1)]) root) ∧
      (relabel (positionIn [(97, 3), (98, 2), (99, 1)]) root).freq = root.freq :=
  decoder_tree_relabelled [(97, 3), (98, 2), (99, 1)] (by decide) (by decide) (by decide)
    (by decide)


/-! ## Decoding with the encoder's own tree -/

theorem codeAt_cons (k : Int) (s : List Bool) (m : List (Int × List Bool)) (c : Int) :
    codeAt ((k, s) :: m) c = if c = k then s else codeAt m c := by
  unfold codeAt
  by_cases h : c = k
  · subst h; simp [List.lookup]
  · have : (c == k) = false := by simpa using h
    simp [List.lookup, this, h]

theorem codeAt_codeAssign (m : List (Int × List Bool)) (k : Int) (s : List Bool) (c : Int) :
    codeAt (codeAssign m k s) c = if c = k then s else codeAt m c := by
  induction m with
  | nil => simp only [codeAssign, codeAt_cons]
  | cons a m ih =>
    obtain ⟨k0, s0⟩ := a
    unfold codeAssign
    by_cases h1 : k < k0
    · simp only [h1, if_true, codeAt_cons]
    · by_cases h2 : k = k0
      · subst h2
        simp only [lt_self_iff_false, if_false, if_true, codeAt_cons]
        by_cases hc : c = k <;> simp [hc]
      · simp only [h1, h2, if_false, codeAt_cons, ih]
        by_cases hc : c = k
        · subst hc; simp [h2]
        · simp [hc]

theorem codeAt_foldl_not_mem (L : List (Int × List Bool)) (c : Int) :
    ∀ (m : List (Int × List Bool)), c ∉ L.map Prod.fst →
    codeAt (L.foldl (fun m a => codeAssign m a.1 a.2) m) c = codeAt m c := by
  induction L with
  | nil => intro m _; rfl
  | cons a L ih =>
    intro m h
    simp only [List.map_cons, List.mem_cons, not_or] at h
    simp only [List.foldl_cons]
    rw [ih _ h.2, codeAt_codeAssign, if_neg h.1]

theorem codeAt_foldl_mem (L : List (Int × List Bool)) (c : Int) (code : List Bool) :
    ∀ (m : List (Int × List Bool)), (L.map Prod.fst).Nodup → (c, code) ∈ L →
    codeAt (L.foldl (fun m a => codeAssign m a.1 a.2) m) c = code := by
  induction L with
  | nil => intro m _ h; simp at h
  | cons a L ih =>
    intro m hnd h
    simp only [List.map_cons, List.nodup_cons] at hnd
    simp only [List.foldl_cons]
    rcases List.mem_cons.1 h with rfl | h
    · rw [codeAt_foldl_not_mem L _ _ hnd.1, codeAt_codeAssign, if_pos rfl]
    · exact ih _ hnd.2 h

theorem leaves_of_wellShaped_node (f c : Int) (l r : Node) (hl : WellShaped l) :
    leaves (Node.mk f c l r) = leaves l ++ leaves r := by
  cases l with
  | null => exact absurd hl (by simp [WellShaped])
  | mk _ _ _ _ => simp [leaves]

/-- In a well-shaped tree without a leaf for the char 0, `buildCode` assigns to the leaf
symbols, in leaf order. -/
theorem codeAssignments_keys (t : Node) : ∀ (str : List Bool), WellShaped t →
    (∀ e ∈ leaves t, e.1 ≠ 0) →
    (codeAssignments t str).map Prod.fst = (leaves t).map Prod.fst := by
  induction t with
  | null => intro str h; exact absurd h (by simp [WellShaped])
  | mk f c l r ihl ihr =>
    intro str hws hnz
    simp only [WellShaped] at hws
    rcases hws with ⟨rfl, rfl⟩ | ⟨hc, hl, hr⟩
    · have hc : c ≠ 0 := hnz (c, f) (by simp [leaves])
      simp [codeAssignments, leaves, hc]
    · subst hc
      rw [leaves_of_wellShaped_node f 0 l r hl] at hnz ⊢
      simp only [codeAssignments, ne_eq, not_true_eq_false, if_false, List.map_append]
      rw [ihl _ hl (fun e he => hnz e (List.mem_append_left _ he)),
        ihr _ hr (fun e he => hnz e (List.mem_append_right _ he))]

theorem walkBits_node (root : Node) (bit : Bool) (bits : List Bool) (f c : Int) (l r : Node)
    (out : List Int) (f2 c2 : Int) (l2 r2 : Node)
    (h : (if bit = true then r else l) = Node.mk f2 c2 l2 r2) :
    walkBits root (bit :: bits) (Node.mk f c l r) out =
      if c2 ≠ 0 then walkBits root bits root (out ++ [c2])
      else walkBits root bits (Node.mk f2 c2 l2 r2) out := by
  simp only [walkBits]
  rw [h]

theorem append_cancel_code (str q : List Bool) (b : Bool) (p : List Bool)
    (h : (str ++ [b]) ++ q = str ++ p) : p = b :: q := by
  rw [List.append_assoc] at h
  have := List.append_cancel_left h
  simpa using this.symm

/-- Entering the subtree `t` from its parent and walking the rest of a code assigned inside `t`
emits the symbol of that code and returns to the root. -/
theorem walkBits_enter (root : Node) (t : Node) :
    ∀ (s q rest : List Bool) (out : List Int) (c : Int) (fp cp : Int) (l r : Node) (bit : Bool),
    WellShaped t → (∀ e ∈ leaves t, e.1 ≠ 0) → (c, s ++ q) ∈ codeAssignments t s →
    (if bit = true then r else l) = t →
    walkBits root (bit :: (q ++ rest)) (Node.mk fp cp l r) out =
      walkBits root rest root (out ++ [c]) := by
  induction t with
  | null => intro s q rest out c fp cp l r bit h; exact absurd h (by simp [WellShaped])
  | mk f c0 a b iha ihb =>
    intro s q rest out c fp cp l r bit hws hnz hmem hbit
    rw [walkBits_node root bit (q ++ rest) fp cp l r out f c0 a b hbit]
    simp only [WellShaped] at hws
    by_cases hc0 : c0 = 0
    · subst hc0
      rw [if_neg (by simp)]
      rcases hws with ⟨rfl, rfl⟩ | ⟨_, ha, hb⟩
      · exact absurd rfl (hnz (0, f) (by simp [leaves]))
      · rw [leaves_of_wellShaped_node f 0 a b ha] at hnz
        simp only [codeAssignments, ne_eq, not_true_eq_false, if_false, List.mem_append] at hmem
        rcases hmem with hmem | hmem
        · obtain ⟨q', hq'⟩ := codeAssignments_extend a _ _ hmem
          have hq : q = false :: q' := append_cancel_code s q' false q hq'
          subst hq
          rw [List.cons_append]
          apply iha (s ++ [false]) q' rest out c f 0 a b false ha
            (fun e he => hnz e (List.mem_append_left _ he)) _ rfl
          rw [List.append_assoc]; exact hmem
        · obtain ⟨q', hq'⟩ := codeAssignments_extend b _ _ hmem
          have hq : q = true :: q' := append_cancel_code s q' true q hq'
          subst hq
          rw [List.cons_append]
          apply ihb (s ++ [true]) q' rest out c f 0 a b true hb
            (fun e he => hnz e (List.mem_append_right _ he)) _ rfl
          rw [List.append_assoc]; exact hmem
    · rw [if_pos hc0]
      simp only [codeAssignments, ne_eq, hc0, not_false_eq_true, if_true,
        List.mem_singleton, Prod.mk.injEq] at hmem
      obtain ⟨rfl, hq⟩ := hmem
      have : q = [] := by
        have := List.append_cancel_left (hq.trans (List.append_nil s).symm)
        exact this
      subst this
      rfl

/-- With a well-shaped root that has children and no leaf for the char 0, the walk over the
concatenated codes of a word of leaf symbols emits the word. -/
theorem walkBits_word (f : Int) (l r : Node) (hl : WellShaped l) (hr : WellShaped r)
    (hnz : ∀ e ∈ leaves (Node.mk f 0 l r), e.1 ≠ 0)
    (hnd : ((leaves (Node.mk f 0 l r)).map Prod.fst).Nodup) (w : List Int) :
    ∀ (out : List Int), (∀ s ∈ w, s ∈ (leaves (Node.mk f 0 l r)).map Prod.fst) →
    walkBits (Node.mk f 0 l r) (encodeString (buildCode (Node.mk f 0 l r) [] []) w)
      (Node.mk f 0 l r) out = Decoded.ok (out ++ w) := by
  have hws : WellShaped (Node.mk f 0 l r) := by
    simp only [WellShaped]; exact Or.inr ⟨trivial, hl, hr⟩
  have hkeys := codeAssignments_keys (Node.mk f 0 l r) [] hws hnz
  induction w with
  | nil => intro out _; simp [encodeString, walkBits]
  | cons s w ih =>
    intro out hw
    have hs : s ∈ (codeAssignments (Node.mk f 0 l r) []).map Prod.fst := by
      rw [hkeys]; exact hw s (by simp)
    obtain ⟨⟨s', code⟩, hmem, hs'⟩ := List.mem_map.1 hs
    simp only at hs'
    subst hs'
    have hcode : codeAt (buildCode (Node.mk f 0 l r) [] []) s' = code := by
      rw [buildCode_eq_foldl]
      exact codeAt_foldl_mem _ s' code [] (by rw [hkeys]; exact hnd) hmem
    simp only [encodeString]
    rw [hcode]
    have hnzl : ∀ e ∈ leaves l, e.1 ≠ 0 := fun e he =>
      hnz e (by rw [leaves_of_wellShaped_node f 0 l r hl]; exact List.mem_append_left _ he)
    have hnzr : ∀ e ∈ leaves r, e.1 ≠ 0 := fun e he =>
      hnz e (by rw [leaves_of_wellShaped_node f 0 l r hl]; exact List.mem_append_right _ he)
    have hstep : walkBits (Node.mk f 0 l r) (code ++ encodeString (buildCode (Node.mk f 0 l r) [] []) w)
        (Node.mk f 0 l r) out =
        walkBits (Node.mk f 0 l r) (encodeString (buildCode (Node.mk f 0 l r) [] []) w)
          (Node.mk f 0 l r) (out ++ [s']) := by
      simp only [codeAssignments, ne_eq, not_true_eq_false, if_false, List.mem_append,
        List.nil_append] at hmem
      rcases hmem with hmem | hmem
      · obtain ⟨q', hq'⟩ := codeAssignments_extend l _ _ hmem
        simp only [List.nil_append, List.singleton_append] at hq'
        subst hq'
        rw [List.cons_append]
        exact walkBits_enter _ l [false] q' _ out s' f 0 l r false hl hnzl (by simpa using hmem) rfl
      · obtain ⟨q', hq'⟩ := codeAssignments_extend r _ _ hmem
        simp only [List.nil_append, List.singleton_append] at hq'
        subst hq'
        rw [List.cons_append]
        exact walkBits_enter _ r [true] q' _ out s' f 0 l r true hr hnzr (by simpa using hmem) rfl
    rw [hstep, ih (out ++ [s']) (fun x hx => hw x (List.mem_cons_of_mem _ hx))]
    simp

/-- C18: for every frequency table with at least two (distinct) symbols, none of them the
char 0, the tree `T` of the merge loop, and every word `w` of symbols of the table,
`decodeFile` with root `T` on the packed concatenation of the codes that `buildCode` assigns from
`T` to the symbols of `w`, with the length of that concatenation as bit count, emits exactly
`w`. -/
theorem decode_encoded_word (freqMap : List (Int × Int)) (h2 : 2 ≤ freqMap.length)
    (hnd : (keys freqMap).Nodup) (h0 : ∀ k ∈ keys freqMap, k ≠ 0)
    (w : List Int) (hw : ∀ s ∈ w, s ∈ keys freqMap) :
    ∃ T, buildHuffmanTree freqMap = some T ∧
      decodeFile T (pack (encodeString (buildCode T [] []) w))
        (encodeString (buildCode T [] []) w).length = Decoded.ok w := by
  have hne : freqMap ≠ [] := by intro e; rw [e] at h2; simp at h2
  obtain ⟨T, _, hT, hws, hleaves⟩ := buildHuffmanTree_shape freqMap hne
  refine ⟨T, hT, ?_⟩
  have hkeysP : ((leaves T).map Prod.fst).Perm (keys freqMap) := hleaves.map Prod.fst
  have hnz : ∀ e ∈ leaves T, e.1 ≠ 0 := fun e he =>
    h0 e.1 (hkeysP.subset (List.mem_map.2 ⟨e, he, rfl⟩))
  have hnd' : ((leaves T).map Prod.fst).Nodup := hkeysP.nodup_iff.2 hnd
  have hw' : ∀ s ∈ w, s ∈ (leaves T).map Prod.fst := fun s hs => hkeysP.symm.subset (hw s hs)
  have hlen : (leaves T).length = freqMap.length := hleaves.length_eq
  rw [decodeFile_eq_walkBits]
  have hx := (packLoop_extract (encodeString (buildCode T [] []) w) 0 0 (by decide)
    (by decide)).1 rfl 0
  unfold pack
  rw [hx]
  cases T with
  | null => exact absurd hws (by simp [WellShaped])
  | mk f c l r =>
    simp only [WellShaped] at hws
    rcases hws with ⟨rfl, rfl⟩ | ⟨rfl, hl, hr⟩
    · simp [leaves] at hlen; omega
    · have := walkBits_word f l r hl hr hnz hnd' w [] hw'
      simpa using this

/-- Witness for C18: the table of "aaabbc" and the word "cab". -/
theorem decode_encoded_word_witness :
    ∃ T, buildHuffmanTree [(97, 3), (98, 2), (99, 1)] = some T ∧
      decodeFile T (pack (encodeString (buildCode T [] []) [99, 97, 98]))
        (encodeString (buildCode T [] []) [99, 97, 98]).length = Decoded.ok [99, 97, 98] :=
  decode_encoded_word [(97, 3), (98, 2), (99, 1)] (by decide) (by decide) (by decide)
    [99, 97, 98] (by decide)


/-! ## Code lengths with Kraft sum at most 1 -/

theorem kraft_nil : kraft [] = 0 := rfl

theorem kraft_cons (d : Nat) (ds : List Nat) : kraft (d :: ds) = ((1 : ℚ) / 2) ^ d + kraft ds := by
  simp [kraft]

theorem kraft_nonneg (ds : List Nat) : 0 ≤ kraft ds := by
  induction ds with
  | nil => simp [kraft]
  | cons d ds ih =>
    rw [kraft_cons]
    have : (0 : ℚ) ≤ ((1 : ℚ) / 2) ^ d := by positivity
    linarith

theorem kraft_perm (l1 l2 : List Nat) (h : l1.Perm l2) : kraft l1 = kraft l2 := by
  unfold kraft
  exact (h.map _).sum_eq

theorem configCost_cons (p : Int × Nat) (C : List (Int × Nat)) :
    configCost (p :: C) = p.1 * (p.2 : Int) + configCost C := by
  simp [configCost]

theorem configCost_perm (C1 C2 : List (Int × Nat)) (h : C1.Perm C2) :
    configCost C1 = configCost C2 := by
  unfold configCost
  exact (h.map _).sum_eq

/-- Lengths can be exchanged so that the two smallest weights `a <= b` get the two largest
lengths, without changing the Kraft sum and without raising the cost. -/
theorem normalize_lengths (a b : Int) (hab : a ≤ b) : ∀ (R : List (Int × Nat)) (da db : Nat),
    (∀ p ∈ R, b ≤ p.1) →
    ∃ (da' db' : Nat) (R' : List (Int × Nat)),
      R'.map Prod.fst = R.map Prod.fst ∧
      kraft (da' :: db' :: R'.map Prod.snd) = kraft (da :: db :: R.map Prod.snd) ∧
      a * (da' : Int) + b * (db' : Int) + configCost R' ≤
        a * (da : Int) + b * (db : Int) + configCost R ∧
      db' ≤ da' ∧ ∀ p ∈ R', p.2 ≤ db' := by
  intro R
  induction R with
  | nil =>
    intro da db _
    by_cases h : db ≤ da
    · exact ⟨da, db, [], rfl, rfl, le_refl _, h, by simp⟩
    · refine ⟨db, da, [], rfl, ?_, ?_, by omega, by simp⟩
      · simp only [List.map_nil, kraft_cons, kraft_nil]; ring
      · have h1 : (da : Int) < db := by omega
        simp only [configCost, List.map_nil, List.sum_nil, add_zero]
        nlinarith
  | cons p R ih =>
    intro da db hR
    obtain ⟨w, d⟩ := p
    have hw : b ≤ w := hR (w, d) (by simp)
    obtain ⟨da1, db1, R1, e1, e2, e3, e4, e5⟩ :=
      ih da db (fun p hp => hR p (List.mem_cons_of_mem _ hp))
    simp only [kraft_cons] at e2
    by_cases hd1 : d ≤ db1
    · refine ⟨da1, db1, (w, d) :: R1, by simp [e1], ?_, ?_, e4, ?_⟩
      · simp only [List.map_cons, kraft_cons]; linarith
      · simp only [configCost_cons]; linarith
      · intro p hp
        rcases List.mem_cons.1 hp with rfl | hp
        · exact hd1
        · exact e5 p hp
    · by_cases hd2 : d ≤ da1
      · refine ⟨da1, d, (w, db1) :: R1, by simp [e1], ?_, ?_, hd2, ?_⟩
        · simp only [List.map_cons, kraft_cons]; linarith
        · simp only [configCost_cons]
          have h1 : (db1 : Int) < d := by omega
          nlinarith
        · intro p hp
          rcases List.mem_cons.1 hp with rfl | hp
          · simp only; omega
          · have := e5 p hp; omega
      · refine ⟨d, da1, (w, db1) :: R1, by simp [e1], ?_, ?_, by omega, ?_⟩
        · simp only [List.map_cons, kraft_cons]; linarith
        · simp only [configCost_cons]
          have h1 : (da1 : Int) < d := by omega
          have h2 : (db1 : Int) ≤ da1 := by omega
          nlinarith
        · intro p hp
          rcases List.mem_cons.1 hp with rfl | hp
          · simp only; omega
          · have := e5 p hp; omega

/-- A Kraft sum of lengths up to `D` is a natural multiple of `2 ^ (-D)`. -/
theorem kraft_mul_pow (D : Nat) (ds : List Nat) (h : ∀ d ∈ ds, d ≤ D) :
    ∃ k : Nat, kraft ds * (2 : ℚ) ^ D = (k : ℚ) := by
  induction ds with
  | nil => exact ⟨0, by simp [kraft]⟩
  | cons d ds ih =>
    obtain ⟨k, hk⟩ := ih (fun x hx => h x (List.mem_cons_of_mem _ hx))
    have hd : d ≤ D := h d (by simp)
    refine ⟨2 ^ (D - d) + k, ?_⟩
    rw [kraft_cons, add_mul, hk]
    have : ((1 : ℚ) / 2) ^ d * (2 : ℚ) ^ D = (2 : ℚ) ^ (D - d) := by
      have hD : D = d + (D - d) := by omega
      conv_lhs => rw [hD, pow_add, ← mul_assoc, ← mul_pow]
      norm_num
    rw [this]
    push_cast
    ring

/-- When the two largest lengths `da >= db` belong to two items, the two items can be replaced
by one item of length `db - 1`. -/
theorem kraft_merge (da db : Nat) (ds : List Nat) (h : kraft (da :: db :: ds) ≤ 1)
    (h1 : db ≤ da) (h2 : ∀ d ∈ ds, d ≤ db) :
    1 ≤ db ∧ kraft ((db - 1) :: ds) ≤ 1 := by
  rw [kraft_cons, kraft_cons] at h
  have hpa : (0 : ℚ) < ((1 : ℚ) / 2) ^ da := by positivity
  have hnn := kraft_nonneg ds
  have hdb : 1 ≤ db := by
    by_contra hc
    have : db = 0 := by omega
    subst this
    simp only [pow_zero] at h
    linarith
  refine ⟨hdb, ?_⟩
  obtain ⟨k, hk⟩ := kraft_mul_pow db (db :: ds) (by
    intro d hd
    rcases List.mem_cons.1 hd with rfl | hd
    · exact le_refl _
    · exact h2 d hd)
  rw [kraft_cons] at hk
  have hp : (0 : ℚ) < (2 : ℚ) ^ db := by positivity
  have hX : ((1 : ℚ) / 2) ^ db + kraft ds < 1 := by linarith
  have hk1 : (k : ℚ) < (2 : ℚ) ^ db := by
    rw [← hk]
    calc (((1 : ℚ) / 2) ^ db + kraft ds) * (2 : ℚ) ^ db < 1 * (2 : ℚ) ^ db :=
          mul_lt_mul_of_pos_right hX hp
      _ = (2 : ℚ) ^ db := one_mul _
  have hk2 : k + 1 ≤ 2 ^ db := by
    have : (k : ℚ) < ((2 ^ db : Nat) : ℚ) := by push_cast; exact hk1
    have := Nat.cast_lt.1 this
    omega
  have hk3 : (k : ℚ) + 1 ≤ (2 : ℚ) ^ db := by
    have : ((k + 1 : Nat) : ℚ) ≤ ((2 ^ db : Nat) : ℚ) := Nat.cast_le.2 hk2
    push_cast at this
    exact this
  have hhalf : ((1 : ℚ) / 2) ^ db * (2 : ℚ) ^ db = 1 := by
    rw [← mul_pow]; norm_num
  have hsplit : ((1 : ℚ) / 2) ^ (db - 1) = 2 * ((1 : ℚ) / 2) ^ db := by
    have e : db = (db - 1) + 1 := by omega
    conv_rhs => rw [e, pow_succ]
    ring
  rw [kraft_cons, hsplit]
  have key : (2 * ((1 : ℚ) / 2) ^ db + kraft ds) * (2 : ℚ) ^ db ≤ 1 * (2 : ℚ) ^ db := by
    have : (2 * ((1 : ℚ) / 2) ^ db + kraft ds) * (2 : ℚ) ^ db =
        (((1 : ℚ) / 2) ^ db + kraft ds) * (2 : ℚ) ^ db + ((1 : ℚ) / 2) ^ db * (2 : ℚ) ^ db := by
      ring
    rw [this, hk, hhalf]
    linarith
  exact le_of_mul_le_mul_right key hp

theorem extract_weight (C : List (Int × Nat)) (a : Int) (ws : List Int)
    (h : (C.map Prod.fst).Perm (a :: ws)) :
    ∃ (d : Nat) (C' : List (Int × Nat)), C.Perm ((a, d) :: C') ∧ (C'.map Prod.fst).Perm ws := by
  have ha : a ∈ C.map Prod.fst := h.symm.subset (by simp)
  obtain ⟨⟨a', d⟩, hp, rfl⟩ := List.mem_map.1 ha
  obtain ⟨s, t, rfl⟩ := List.append_of_mem hp
  have hmid : (s ++ (a', d) :: t).Perm ((a', d) :: (s ++ t)) := List.perm_middle
  refine ⟨d, s ++ t, hmid, ?_⟩
  have h1 : ((s ++ (a', d) :: t).map Prod.fst).Perm (a' :: (s ++ t).map Prod.fst) :=
    hmid.map Prod.fst
  exact List.Perm.cons_inv (h1.symm.trans h)

/-- One merge of the two smallest weights: lengths for the weights before the merge give
lengths for the weights after it, at a cost lower by at least the sum of the two weights. -/
theorem reach_merge (a b : Int) (R : List Int) (bound : Int) (h0 : 0 ≤ a) (hab : a ≤ b)
    (hR : ∀ r ∈ R, b ≤ r) (h : Reach (a :: b :: R) bound) :
    Reach ((a + b) :: R) (bound - (a + b)) := by
  obtain ⟨C, hC1, hC2, hC3⟩ := h
  obtain ⟨da, C1, hp1, hw1⟩ := extract_weight C a (b :: R) hC1
  obtain ⟨db, R0, hp2, hw2⟩ := extract_weight C1 b R hw1
  have hperm : C.Perm ((a, da) :: (b, db) :: R0) := hp1.trans (List.Perm.cons _ hp2)
  have hk : kraft (da :: db :: R0.map Prod.snd) ≤ 1 := by
    have := kraft_perm _ _ (hperm.map Prod.snd)
    simp only [List.map_cons] at this
    rw [← this]; exact hC2
  have hc : a * (da : Int) + b * (db : Int) + configCost R0 ≤ bound := by
    have := configCost_perm _ _ hperm
    simp only [configCost_cons] at this
    linarith
  have hR0 : ∀ p ∈ R0, b ≤ p.1 := fun p hp =>
    hR p.1 (hw2.subset (List.mem_map.2 ⟨p, hp, rfl⟩))
  obtain ⟨da', db', R', e1, e2, e3, e4, e5⟩ := normalize_lengths a b hab R0 da db hR0
  have hk' : kraft (da' :: db' :: R'.map Prod.snd) ≤ 1 := by rw [e2]; exact hk
  obtain ⟨hdb, hm⟩ := kraft_merge da' db' (R'.map Prod.snd) hk' e4 (by
    intro d hd
    obtain ⟨p, hp, rfl⟩ := List.mem_map.1 hd
    exact e5 p hp)
  refine ⟨(a + b, db' - 1) :: R', ?_, ?_, ?_⟩
  · simp only [List.map_cons]
    exact List.Perm.cons _ (by rw [e1]; exact hw2)
  · simpa using hm
  · rw [configCost_cons]
    simp only
    have hcast : ((db' - 1 : Nat) : Int) = (db' : Int) - 1 := by omega
    rw [hcast]
    have h4 : (db' : Int) ≤ (da' : Int) := by exact_mod_cast e4
    nlinarith

theorem reach_perm (ws ws' : List Int) (bound : Int) (hp : ws.Perm ws') (h : Reach ws bound) :
    Reach ws' bound := by
  obtain ⟨C, h1, h2, h3⟩ := h
  exact ⟨C, h1.trans hp, h2, h3⟩

/-! ## Kraft's inequality for prefix-free codes -/

theorem kraft_map_length_split (L : List (List Bool)) (hne : ∀ c ∈ L, c ≠ []) :
    kraft (L.map List.length) =
      (kraft ((tailsOf false L).map List.length) + kraft ((tailsOf true L).map List.length)) / 2 := by
  induction L with
  | nil => simp [kraft, tailsOf]
  | cons c L ih =>
    have ih' := ih (fun x hx => hne x (List.mem_cons_of_mem _ hx))
    have hc := hne c (by simp)
    unfold tailsOf at ih' ⊢
    cases c with
    | nil => exact absurd rfl hc
    | cons b t =>
      cases b with
      | false =>
        simp only [List.map_cons, List.filterMap_cons, kraft_cons, List.length_cons, ih',
          if_true, Bool.false_eq_true, if_false]
        rw [pow_succ]; ring
      | true =>
        simp only [List.map_cons, List.filterMap_cons, kraft_cons, List.length_cons, ih',
          if_true, Bool.true_eq_false, if_false]
        rw [pow_succ]; ring

theorem pairwise_tailsOf (b : Bool) (L : List (List Bool))
    (h : L.Pairwise (fun x y => ¬ x <+: y ∧ ¬ y <+: x)) :
    (tailsOf b L).Pairwise (fun x y => ¬ x <+: y ∧ ¬ y <+: x) := by
  unfold tailsOf
  rw [List.pairwise_filterMap]
  refine h.imp ?_
  intro x y hxy x' hx' y' hy'
  cases x with
  | nil => simp at hx'
  | cons bx tx =>
    cases y with
    | nil => simp at hy'
    | cons by' ty =>
      simp only [Option.mem_def] at hx' hy'
      split at hx'
      · rename_i hbx
        split at hy'
        · rename_i hby
          simp only [Option.some.injEq] at hx' hy'
          subst hx' hy' hbx hby
          constructor
          · intro hp; exact hxy.1 ((List.prefix_cons_inj _).2 hp)
          · intro hp; exact hxy.2 ((List.prefix_cons_inj _).2 hp)
        · simp at hy'
      · simp at hx'

theorem length_le_of_mem_tailsOf (b : Bool) (L : List (List Bool)) (n : Nat)
    (h : ∀ c ∈ L, c.length ≤ n + 1) : ∀ t ∈ tailsOf b L, t.length ≤ n := by
  intro t ht
  unfold tailsOf at ht
  obtain ⟨c, hc, hct⟩ := List.mem_filterMap.1 ht
  cases c with
  | nil => simp at hct
  | cons b' t' =>
    simp only at hct
    split at hct
    · simp only [Option.some.injEq] at hct
      subst hct
      have := h _ hc
      simpa using this
    · simp at hct

/-- Kraft's inequality: the lengths of pairwise prefix-free codes have Kraft sum at most 1. -/
theorem kraft_prefix_free (n : Nat) : ∀ (L : List (List Bool)),
    (∀ c ∈ L, c.length ≤ n) → L.Pairwise (fun x y => ¬ x <+: y ∧ ¬ y <+: x) →
    kraft (L.map List.length) ≤ 1 := by
  induction n with
  | zero =>
    intro L hlen hpw
    cases L with
    | nil => simp [kraft]
    | cons c L =>
      have hc : c = [] := List.length_eq_zero.1 (Nat.le_zero.1 (hlen c (by simp)))
      subst hc
      cases L with
      | nil => simp [kraft]
      | cons c2 L =>
        have := (List.pairwise_cons.1 hpw).1 c2 (by simp)
        exact absurd (List.nil_prefix) this.1
  | succ n ih =>
    intro L hlen hpw
    by_cases hnil : [] ∈ L
    · -- the empty code excludes every other code
      cases L with
      | nil => simp [kraft]
      | cons c L =>
        cases L with
        | nil =>
          have : c = [] := by simpa using hnil
          subst this; simp [kraft]
        | cons c2 L =>
          exfalso
          have h1 := (List.pairwise_cons.1 hpw).1
          rcases List.mem_cons.1 hnil with hc | hc
          · subst hc
            exact (h1 c2 (by simp)).1 List.nil_prefix
          · exact (h1 [] hc).2 List.nil_prefix
    · rw [kraft_map_length_split L (fun c hc e => hnil (e ▸ hc))]
      have h0 := ih (tailsOf false L) (length_le_of_mem_tailsOf false L n hlen)
        (pairwise_tailsOf false L hpw)
      have h1 := ih (tailsOf true L) (length_le_of_mem_tailsOf true L n hlen)
        (pairwise_tailsOf true L hpw)
      linarith


/-! ## The merge loop follows the cheapest code lengths -/

theorem weightedDepth_succ (t : Node) : ∀ (k : Nat), SumTree t →
    weightedDepth t (k + 1) = weightedDepth t k + t.freq := by
  induction t with
  | null => intro k h; exact absurd h (by simp [SumTree])
  | mk f c l r ihl ihr =>
    intro k h
    simp only [SumTree] at h
    rcases h with ⟨rfl, rfl⟩ | ⟨hl, hr, hf, hsl, hsr⟩
    · simp only [weightedDepth, Node.freq]; push_cast; ring
    · cases l with
      | null => exact absurd rfl hl
      | mk fl cl ll rl =>
        simp only [weightedDepth]
        rw [ihl (k + 1) hsl, ihr (k + 1) hsr]
        simp only [Node.freq] at hf ⊢
        rw [hf]; ring

theorem weightedDepth_combine (l r : Node) (hl : SumTree l) (hr : SumTree r) :
    weightedDepth (combine l r) 0 =
      weightedDepth l 0 + weightedDepth r 0 + (l.freq + r.freq) := by
  unfold combine
  cases l with
  | null => exact absurd hl (by simp [SumTree])
  | mk fl cl ll rl =>
    simp only [weightedDepth]
    rw [weightedDepth_succ _ 0 hl, weightedDepth_succ _ 0 hr]
    ring

theorem weightedDepth_leaf (f c : Int) : weightedDepth (Node.mk f c Node.null Node.null) 0 = 0 := by
  simp [weightedDepth]

/-- One iteration of the merge loop keeps: lengths for the root frequencies in the queue exist
whose cost, added to the weighted depths inside the trees, is at most `B`. -/
theorem optInv_step (freqMap : List (Int × Int)) (B : Int)
    (htot : sumCounts freqMap < 2147483648)
    (pq : List Node) (hheap : IsHeap pq) (hlen : pq.length > 1)
    (h : SumInv freqMap pq ∧
      Reach (pq.map Node.freq) (B - (pq.map (fun x => weightedDepth x 0)).sum)) :
    SumInv freqMap (pq_push (pq_pop (pq_pop pq))
        (combine (pq.headD Node.null) ((pq_pop pq).headD Node.null))) ∧
      Reach ((pq_push (pq_pop (pq_pop pq))
        (combine (pq.headD Node.null) ((pq_pop pq).headD Node.null))).map Node.freq)
        (B - ((pq_push (pq_pop (pq_pop pq))
          (combine (pq.headD Node.null) ((pq_pop pq).headD Node.null))).map
            (fun x => weightedDepth x 0)).sum) := by
  obtain ⟨hsum, hreach⟩ := h
  have hnew := sumInv_step freqMap htot pq hheap hlen hsum
  refine ⟨hnew, ?_⟩
  obtain ⟨s1, s2, _, s4, s5⟩ := merge_step pq hheap hlen
  obtain ⟨hall, _, hs⟩ := hsum
  generalize pq.headD Node.null = l at s1 s2 s4 s5 hnew
  generalize (pq_pop pq).headD Node.null = r at s1 s2 s4 s5 hnew
  generalize pq_pop (pq_pop pq) = pq2 at s1 s2 s5 hnew
  have hl := hall l (s1.symm.subset (by simp))
  have hr := hall r (s1.symm.subset (by simp))
  have hfreq : (combine l r).freq = l.freq + r.freq := by
    have hsum1 : l.freq + (r.freq + (pq2.map Node.freq).sum) = sumCounts freqMap := by
      rw [← hs, (s1.map Node.freq).sum_eq]; simp
    have hnn : 0 ≤ (pq2.map Node.freq).sum := by
      apply List.sum_nonneg
      intro a ha
      obtain ⟨x, hx, rfl⟩ := List.mem_map.1 ha
      have := (hall x (s1.symm.subset (by simp [hx]))).2
      omega
    rw [freq_combine, wrapInt32_of_range _ (by omega) (by omega)]
  have hr1 : Reach (l.freq :: r.freq :: pq2.map Node.freq)
      (B - (weightedDepth l 0 + (weightedDepth r 0 + (pq2.map (fun x => weightedDepth x 0)).sum))) := by
    have e : (pq.map (fun x => weightedDepth x 0)).sum =
        weightedDepth l 0 + (weightedDepth r 0 + (pq2.map (fun x => weightedDepth x 0)).sum) := by
      rw [(s1.map (fun x => weightedDepth x 0)).sum_eq]; simp
    rw [← e]
    exact reach_perm _ _ _ (by simpa using s1.map Node.freq) hreach
  have hr2 := reach_merge l.freq r.freq (pq2.map Node.freq) _ (by omega) s4
    (by
      intro x hx
      obtain ⟨y, hy, rfl⟩ := List.mem_map.1 hx
      exact s5 y hy) hr1
  have e2 : ((pq_push pq2 (combine l r)).map (fun x => weightedDepth x 0)).sum =
      weightedDepth (combine l r) 0 + (pq2.map (fun x => weightedDepth x 0)).sum := by
    rw [(s2.map (fun x => weightedDepth x 0)).sum_eq]; simp
  rw [e2, weightedDepth_combine l r hl.1 hr.1]
  refine reach_perm _ _ _ ?_ (by
    have e3 : B - (weightedDepth l 0 + (weightedDepth r 0 +
        (pq2.map (fun x => weightedDepth x 0)).sum)) - (l.freq + r.freq) =
        B - (weightedDepth l 0 + weightedDepth r 0 + (l.freq + r.freq) +
          (pq2.map (fun x => weightedDepth x 0)).sum) := by ring
    rw [← e3]; exact hr2)
  have := (s2.map Node.freq).symm
  simpa [hfreq] using this

theorem sum_leaves_len (t : Node) : ∀ (str : List Bool) (len : Int → Nat), WellShaped t →
    (∀ e ∈ leaves t, e.1 ≠ 0) →
    (∀ p ∈ codeAssignments t str, len p.1 = p.2.length) →
    ((leaves t).map (fun e => e.2 * (len e.1 : Int))).sum = weightedDepth t str.length := by
  induction t with
  | null => intro str len h; exact absurd h (by simp [WellShaped])
  | mk f c l r ihl ihr =>
    intro str len hws hnz hlen
    simp only [WellShaped] at hws
    rcases hws with ⟨rfl, rfl⟩ | ⟨hc, hl, hr⟩
    · have hc : c ≠ 0 := hnz (c, f) (by simp [leaves])
      have := hlen (c, str) (by simp [codeAssignments, hc])
      simp only at this
      simp [leaves, weightedDepth, this]
    · subst hc
      rw [leaves_of_wellShaped_node f 0 l r hl] at hnz ⊢
      simp only [codeAssignments, ne_eq, not_true_eq_false, if_false, List.mem_append] at hlen
      have e1 := ihl (str ++ [false]) len hl (fun e he => hnz e (List.mem_append_left _ he))
        (fun p hp => hlen p (Or.inl hp))
      have e2 := ihr (str ++ [true]) len hr (fun e he => hnz e (List.mem_append_right _ he))
        (fun p hp => hlen p (Or.inr hp))
      simp only [List.length_append, List.length_singleton] at e1 e2
      rw [List.map_append, List.sum_append, e1, e2]
      cases l with
      | null => exact absurd hl (by simp [WellShaped])
      | mk _ _ _ _ => simp only [weightedDepth]

theorem length_le_sum_lengths (L : List (List Bool)) : ∀ c ∈ L, c.length ≤ (L.map List.length).sum := by
  induction L with
  | nil => intro c h; simp at h
  | cons a L ih =>
    intro c h
    simp only [List.map_cons, List.sum_cons]
    rcases List.mem_cons.1 h with rfl | h
    · omega
    · have := ih c h; omega

/-- A prefix-free assignment of codes to the symbols of a table gives code lengths with Kraft sum
at most 1. -/
theorem reach_of_prefix_free (freqMap : List (Int × Int)) (hnd : (keys freqMap).Nodup)
    (alt : Int → List Bool)
    (hpf : ∀ s1 ∈ keys freqMap, ∀ s2 ∈ keys freqMap, s1 ≠ s2 → ¬ alt s1 <+: alt s2) :
    Reach (freqMap.map Prod.snd)
      (freqMap.map (fun e => e.2 * ((alt e.1).length : Int))).sum := by
  refine ⟨freqMap.map (fun e => (e.2, (alt e.1).length)), ?_, ?_, ?_⟩
  · rw [List.map_map]; exact List.Perm.refl _
  · rw [List.map_map]
    have e : (freqMap.map (Prod.snd ∘ fun e : Int × Int => (e.2, (alt e.1).length))) =
        ((keys freqMap).map alt).map List.length := by
      simp [keys, List.map_map, Function.comp]
    rw [e]
    apply kraft_prefix_free _ _ (length_le_sum_lengths _)
    rw [List.pairwise_map]
    have hpw : (keys freqMap).Pairwise (fun a b => a ≠ b) := hnd
    have hmem : (keys freqMap).Pairwise (fun a b => a ∈ keys freqMap ∧ b ∈ keys freqMap) := by
      rw [List.pairwise_iff_forall_sublist]
      intro a b hab
      have := hab.subset
      exact ⟨this (by simp), this (by simp)⟩
    refine (hpw.and hmem).imp ?_
    intro a b hab
    exact ⟨hpf a hab.2.1 b hab.2.2 hab.1, hpf b hab.2.2 a hab.2.1 (Ne.symm hab.1)⟩
  · unfold configCost
    rw [List.map_map]
    exact le_refl _

/-- C20: for every frequency table (distinct symbols, counts at least 1) with at least two
symbols, none of them the char 0, and a total count below 2^31, the code table of
`buildHuffmanTree` and `buildCode` has the least encoded length: the sum over the table of
count times code length is at most the same sum for every prefix-free assignment of codes to
the symbols of the table. -/
theorem huffman_code_optimal (freqMap : List (Int × Int)) (h2 : 2 ≤ freqMap.length)
    (hnd : (keys freqMap).Nodup) (h0 : ∀ k ∈ keys freqMap, k ≠ 0)
    (hpos : ∀ e ∈ freqMap, 1 ≤ e.2) (htot : sumCounts freqMap < 2147483648)
    (alt : Int → List Bool)
    (hpf : ∀ s1 ∈ keys freqMap, ∀ s2 ∈ keys freqMap, s1 ≠ s2 → ¬ alt s1 <+: alt s2) :
    ∃ T, buildHuffmanTree freqMap = some T ∧
      (freqMap.map (fun e => e.2 * ((codeAt (buildCode T [] []) e.1).length : Int))).sum ≤
        (freqMap.map (fun e => e.2 * ((alt e.1).length : Int))).sum := by
  have hne : freqMap ≠ [] := by intro e; rw [e] at h2; simp at h2
  obtain ⟨T, hml, hT, hws, hleaves⟩ := buildHuffmanTree_shape freqMap hne
  refine ⟨T, hT, ?_⟩
  -- the cost of the code table is the weighted depth of the tree
  have hkeysP : ((leaves T).map Prod.fst).Perm (keys freqMap) := hleaves.map Prod.fst
  have hnz : ∀ e ∈ leaves T, e.1 ≠ 0 := fun e he =>
    h0 e.1 (hkeysP.subset (List.mem_map.2 ⟨e, he, rfl⟩))
  have hnd' : ((leaves T).map Prod.fst).Nodup := hkeysP.nodup_iff.2 hnd
  have hkeys := codeAssignments_keys T [] hws hnz
  have hcost : (freqMap.map (fun e => e.2 * ((codeAt (buildCode T [] []) e.1).length : Int))).sum =
      weightedDepth T 0 := by
    rw [← (hleaves.map (fun e => e.2 * ((codeAt (buildCode T [] []) e.1).length : Int))).sum_eq]
    have := sum_leaves_len T [] (fun c => (codeAt (buildCode T [] []) c).length) hws hnz
      (by
        intro p hp
        simp only
        rw [buildCode_eq_foldl, codeAt_foldl_mem _ p.1 p.2 [] (by rw [hkeys]; exact hnd') hp])
    simpa using this
  rw [hcost]
  -- the merge loop stays below the cost of the other assignment
  have hinit : SumInv freqMap (leafQueue freqMap) ∧
      Reach ((leafQueue freqMap).map Node.freq)
        ((freqMap.map (fun e => e.2 * ((alt e.1).length : Int))).sum -
          ((leafQueue freqMap).map (fun x => weightedDepth x 0)).sum) := by
    refine ⟨sumInv_leafQueue freqMap hpos, ?_⟩
    have hp := perm_leafQueue freqMap
    have hz : ((leafQueue freqMap).map (fun x => weightedDepth x 0)).sum = 0 := by
      rw [(hp.map (fun x => weightedDepth x 0)).sum_eq, List.map_map]
      apply List.sum_eq_zero
      intro x hx
      obtain ⟨e, _, rfl⟩ := List.mem_map.1 hx
      exact weightedDepth_leaf e.2 e.1
    rw [hz, sub_zero]
    refine reach_perm _ _ _ ?_ (reach_of_prefix_free freqMap hnd alt hpf)
    have := (hp.map Node.freq).symm
    rw [List.map_map] at this
    exact this
  have hfin := (mergeLoop_invariant
    (fun pq => SumInv freqMap pq ∧
      Reach (pq.map Node.freq)
        ((freqMap.map (fun e => e.2 * ((alt e.1).length : Int))).sum -
          (pq.map (fun x => weightedDepth x 0)).sum))
    (fun pq hh hlen hp => optInv_step freqMap _ htot pq hh hlen hp)
    (leafQueue freqMap).length (leafQueue freqMap) (isHeap_leafQueue freqMap) hinit).1
  rw [hml] at hfin
  obtain ⟨⟨hall, _, _⟩, C, hC1, _, hC3⟩ := hfin
  have hTpos : 1 ≤ T.freq := (hall T (by simp)).2
  simp only [List.map_cons, List.map_nil, List.sum_cons, List.sum_nil, add_zero] at hC1 hC3
  have hCnn : 0 ≤ configCost C := by
    unfold configCost
    apply List.sum_nonneg
    intro x hx
    obtain ⟨p, hp, rfl⟩ := List.mem_map.1 hx
    have hp1 : p.1 ∈ [T.freq] := hC1.subset (List.mem_map.2 ⟨p, hp, rfl⟩)
    have hp2 : p.1 = T.freq := by simpa using hp1
    have : (0 : Int) ≤ (p.2 : Int) := Int.natCast_nonneg _
    rw [hp2]
    positivity
  linarith

/-- Witness for C20: the table of "aaabbc" against the fixed-length code a = 00, b = 01,
c = 10. -/
theorem huffman_code_optimal_witness :
    ∃ T, buildHuffmanTree [(97, 3), (98, 2), (99, 1)] = some T ∧
      (([(97, 3), (98, 2), (99, 1)] : List (Int × Int)).map
        (fun e => e.2 * ((codeAt (buildCode T [] []) e.1).length : Int))).sum ≤
      (([(97, 3), (98, 2), (99, 1)] : List (Int × Int)).map
        (fun e => e.2 * (((fun s : Int =>
          if s = 97 then [false, false] else if s = 98 then [false, true] else [true, false])
            e.1).length : Int))).sum :=
  huffman_code_optimal [(97, 3), (98, 2), (99, 1)] (by decide) (by decide) (by decide)
    (by decide) (by decide)
    (fun s : Int =>
      if s = 97 then [false, false] else if s = 98 then [false, true] else [true, false])
    (by decide)

end Huffman

